import Mathlib

/-!
A verification development for the clipdrop_bot job pipeline.

The Python sources (`src/url_extractors.py`, `src/job_store.py`,
`src/telegram_bot.py`, `src/worker.py`) are shallowly embedded below as
executable Lean definitions:

* strings are Lean `String`s, manipulated as their `List Char` of code
  points; the CPython `str` operations used by the code (`lower`,
  `strip`, `lstrip`, `rstrip`, comparison, `in`, `startswith`,
  `endswith`) are modelled on code-point lists.  Case mapping is
  modelled for the ASCII range (the hosts, schemes, keys and statuses
  the code compares against are all ASCII);
* `urllib.parse.urlparse` / `urlunparse` / `parse_qsl` / `urlencode` /
  `unquote` / `quote_plus` are modelled after the CPython 3.11
  implementations, including the WHATWG control-character stripping,
  the scheme/netloc/fragment/query/params split, bracketed-host
  validation, percent codecs and UTF-8 round trips.  The only
  idealisation: `_checknetloc`'s NFKC-confusable rejection (which can
  only fire for non-ASCII netlocs) is modelled as accepting;
* the `JobStore`'s two JSONL files are lists of typed records (a
  JSON-decode failure skips a line during replay, so the replayed rows
  are exactly the well-formed records); `uuid4` and `datetime.now` are
  oracle inputs to each operation, with freshness of generated ids an
  explicit hypothesis where a claim needs it;
* the callback half of `TelegramBotRuntime` (`_mark_event_seen`,
  `handle_callback_request`) is a pure state transformer over the
  dedup set, the insertion-order deque and the dispatch queue.
-/

namespace Clipdrop

/-! ## Python string primitives (on `List Char`) -/

/-- Unicode white space, as recognised by CPython's `str.strip()`,
`str.isspace()` and the `\s` / `\S` regex classes. -/
def pyIsSpace (c : Char) : Bool :=
  let n := c.toNat
  (9 ≤ n && n ≤ 13) || (28 ≤ n && n ≤ 32) || n = 0x85 || n = 0xA0 ||
  n = 0x1680 || (0x2000 ≤ n && n ≤ 0x200A) || n = 0x2028 || n = 0x2029 ||
  n = 0x202F || n = 0x205F || n = 0x3000

def isAsciiAlpha (c : Char) : Bool :=
  ('a' ≤ c && c ≤ 'z') || ('A' ≤ c && c ≤ 'Z')

def isAsciiDigit (c : Char) : Bool :=
  '0' ≤ c && c ≤ '9'

def isHexDigitChar (c : Char) : Bool :=
  isAsciiDigit c || ('a' ≤ c && c ≤ 'f') || ('A' ≤ c && c ≤ 'F')

/-- ASCII case folding of one code point (CPython `str.lower` restricted
to the ASCII range; every string the code compares after lowering is
ASCII). -/
def pyLowerChar (c : Char) : Char :=
  if 'A' ≤ c && c ≤ 'Z' then Char.ofNat (c.toNat + 32) else c

def lowerL (l : List Char) : List Char := l.map pyLowerChar

def pyLower (s : String) : String := String.mk (lowerL s.data)

/-- `str.strip()` with no argument: strip white space on both ends. -/
def pyStripL (l : List Char) : List Char :=
  ((l.dropWhile pyIsSpace).reverse.dropWhile pyIsSpace).reverse

def pyStrip (s : String) : String := String.mk (pyStripL s.data)

/-- `str.lstrip(chars)` / `str.rstrip(chars)` with an explicit char set. -/
def pyLStrip (p : Char → Bool) (l : List Char) : List Char := l.dropWhile p

def pyRStrip (p : Char → Bool) (l : List Char) : List Char :=
  (l.reverse.dropWhile p).reverse

/-- CPython `str` comparison: strict lexicographic order on code points. -/
def lexLt : List Char → List Char → Bool
  | [], [] => false
  | [], _ :: _ => true
  | _ :: _, [] => false
  | a :: as, b :: bs => if a < b then true else if b < a then false else lexLt as bs

def lexLe (a b : List Char) : Bool := !(lexLt b a)

/-- Python tuple `(a₁, a₂) ≤ (b₁, b₂)` for string pairs. -/
def pairLe (a b : List Char × List Char) : Bool :=
  if lexLt a.1 b.1 then true
  else if lexLt b.1 a.1 then false
  else lexLe a.2 b.2

/-- Python tuple `≤` for string triples (the compaction sort key). -/
def tripleLe (a b : List Char × List Char × List Char) : Bool :=
  if lexLt a.1 b.1 then true
  else if lexLt b.1 a.1 then false
  else pairLe a.2 b.2

/-- One insertion step of `pySortBy`. -/
def insertLe (le : α → α → Bool) (x : α) : List α → List α
  | [] => [x]
  | y :: ys => if le x y then x :: y :: ys else y :: insertLe le x ys

/-- Stable sort by a boolean `le` (insertion sort).  Python's
`list.sort` is a stable sort; every sort key in this code — the
`(key, value)` pairs of `_strip_tracking_query`, the
`(created_at, job_id)` pairs of `claim_next`, the
`(created_at, updated_at, job_id)` triples of compaction — is a total
order on the lists being sorted, so the sorted output is unique and
the choice of stable algorithm cannot be observed. -/
def pySortBy (le : α → α → Bool) : List α → List α
  | [] => []
  | x :: xs => insertLe le x (pySortBy le xs)

/-- First index of `c` in `l` (`str.find`), if any. -/
def findIdx (c : Char) (l : List Char) : Option Nat :=
  l.findIdx? (· = c)

/-- Split at the first occurrence of `c`; `none` when `c` is absent
(`str.split(c, 1)` / `str.partition`). -/
def splitFirst (c : Char) : List Char → Option (List Char × List Char)
  | [] => none
  | x :: xs =>
    if x = c then some ([], xs)
    else (splitFirst c xs).map (fun p => (x :: p.1, p.2))

/-- Accumulator worker for `splitAll`. -/
def splitAllAux (c : Char) : List Char → List Char → List (List Char)
  | [], acc => [acc.reverse]
  | x :: xs, acc =>
    if x = c then acc.reverse :: splitAllAux c xs []
    else splitAllAux c xs (x :: acc)

/-- `str.split(sep)` for a one-character separator
(what `parse_qsl` does with `separator='&'` and `_ip_int_from_string`
does with `':'`). -/
def splitAll (c : Char) (l : List Char) : List (List Char) :=
  splitAllAux c l []

/-! ## UTF-8 and percent codecs (CPython `urllib.parse` internals) -/

/-- UTF-8 encoding of one code point as a byte list. -/
def utf8EncodeChar (c : Char) : List Nat :=
  let n := c.toNat
  if n < 0x80 then [n]
  else if n < 0x800 then [0xC0 + n / 64, 0x80 + n % 64]
  else if n < 0x10000 then
    [0xE0 + n / 4096, 0x80 + (n / 64) % 64, 0x80 + n % 64]
  else
    [0xF0 + n / 262144, 0x80 + (n / 4096) % 64, 0x80 + (n / 64) % 64,
     0x80 + n % 64]

def utf8Encode (l : List Char) : List Nat := l.flatMap utf8EncodeChar

/-- The U+FFFD replacement character used by `errors='replace'`. -/
def replChar : Char := Char.ofNat 0xFFFD

/-- Total number of bytes of a UTF-8 sequence led by `b`
(0 when `b` cannot lead a sequence). -/
def utf8Len (b : Nat) : Nat :=
  if b < 0x80 then 1
  else if b < 0xC2 then 0
  else if b < 0xE0 then 2
  else if b < 0xF0 then 3
  else if b < 0xF5 then 4
  else 0

/-- Whether `c` is a valid `i`-th continuation byte after lead `lead`
(the first continuation is range-restricted to exclude overlong forms,
surrogates and code points above U+10FFFF). -/
def utf8ContOk (lead i c : Nat) : Bool :=
  if i = 0 then
    if lead = 0xE0 then 0xA0 ≤ c && c ≤ 0xBF
    else if lead = 0xED then 0x80 ≤ c && c ≤ 0x9F
    else if lead = 0xF0 then 0x90 ≤ c && c ≤ 0xBF
    else if lead = 0xF4 then 0x80 ≤ c && c ≤ 0x8F
    else 0x80 ≤ c && c ≤ 0xBF
  else 0x80 ≤ c && c ≤ 0xBF

/-- Valid continuation bytes after the first one: the plain 80–BF range. -/
def utf8TakeContsTail : Nat → List Nat → List Nat
  | 0, _ => []
  | _, [] => []
  | need + 1, c :: rest =>
    if 0x80 ≤ c && c ≤ 0xBF then c :: utf8TakeContsTail need rest else []

/-- The longest prefix of the byte list that is a valid continuation run
for `lead`, of length at most `need`. -/
def utf8TakeConts (lead : Nat) : Nat → List Nat → List Nat
  | 0, _ => []
  | _, [] => []
  | need + 1, c :: rest =>
    if utf8ContOk lead 0 c then c :: utf8TakeContsTail need rest else []

/-- Code point assembled from a lead byte and its continuations. -/
def utf8Assemble (b : Nat) (conts : List Nat) : Char :=
  let v := conts.foldl (fun acc c => acc * 64 + (c - 0x80))
    (if b < 0xE0 then b - 0xC0 else if b < 0xF0 then b - 0xE0 else b - 0xF0)
  Char.ofNat v

/-- Fuel-indexed worker for `utf8DecodeReplace` (the fuel only makes
the recursion structural; it never runs out when it starts at the
length of the byte list, since every step consumes at least one byte). -/
def utf8DecodeReplaceFuel : Nat → List Nat → List Char
  | 0, _ => []
  | _, [] => []
  | fuel + 1, b :: rest =>
    if b < 0x80 then Char.ofNat b :: utf8DecodeReplaceFuel fuel rest
    else
      let n := utf8Len b
      if n = 0 then replChar :: utf8DecodeReplaceFuel fuel rest
      else
        let conts := utf8TakeConts b (n - 1) rest
        if conts.length = n - 1 then
          utf8Assemble b conts :: utf8DecodeReplaceFuel fuel (rest.drop (n - 1))
        else
          replChar :: utf8DecodeReplaceFuel fuel (rest.drop conts.length)

/-- `bytes.decode('utf-8', errors='replace')`: strict UTF-8 decoding with
one U+FFFD per maximal invalid subpart (what CPython emits). -/
def utf8DecodeReplace (l : List Nat) : List Char :=
  utf8DecodeReplaceFuel l.length l

def hexDigitVal (c : Char) : Nat :=
  if isAsciiDigit c then c.toNat - '0'.toNat
  else if 'a' ≤ c && c ≤ 'f' then c.toNat - 'a'.toNat + 10
  else c.toNat - 'A'.toNat + 10

/-- `urllib.parse.unquote(s, errors='replace')` on a code-point list.
A run of `%XX` escapes and literal ASCII characters is decoded as one
UTF-8 byte string; literal non-ASCII characters pass through unchanged
(CPython splits the input on ASCII runs and only those runs travel
through `unquote_to_bytes`).  A `%` not followed by two hex digits stays
literal. -/
def unquoteAux : List Char → List Nat → List Char
  | [], buf => utf8DecodeReplace buf
  | '%' :: h1 :: h2 :: rest, buf =>
    if isHexDigitChar h1 && isHexDigitChar h2 then
      unquoteAux rest (buf ++ [hexDigitVal h1 * 16 + hexDigitVal h2])
    else unquoteAux (h1 :: h2 :: rest) (buf ++ ['%'.toNat])
  | c :: rest, buf =>
    if c.toNat < 0x80 then unquoteAux rest (buf ++ [c.toNat])
    else utf8DecodeReplace buf ++ c :: unquoteAux rest []

def unquoteL (l : List Char) : List Char := unquoteAux l []

/-- `.replace('+', ' ')`, applied by `parse_qsl` before unquoting. -/
def replacePlus (l : List Char) : List Char :=
  l.map (fun c => if c = '+' then ' ' else c)

def unquotePlusL (l : List Char) : List Char := unquoteL (replacePlus l)

/-- Bytes never quoted by `urllib.parse.quote`: ASCII alphanumerics and
`_.-~`. -/
def quoteAlwaysSafe (b : Nat) : Bool :=
  (0x41 ≤ b && b ≤ 0x5A) || (0x61 ≤ b && b ≤ 0x7A) || (0x30 ≤ b && b ≤ 0x39) ||
  b = '_'.toNat || b = '.'.toNat || b = '-'.toNat || b = '~'.toNat

def hexUpperDigit (n : Nat) : Char :=
  if n < 10 then Char.ofNat ('0'.toNat + n) else Char.ofNat ('A'.toNat + n - 10)

/-- One byte under `urllib.parse.quote_plus` with `safe=''`: safe bytes
stay, space becomes `+`, everything else becomes `%XX` (upper hex). -/
def quotePlusByte (b : Nat) : List Char :=
  if quoteAlwaysSafe b then [Char.ofNat b]
  else if b = 0x20 then ['+']
  else ['%', hexUpperDigit (b / 16), hexUpperDigit (b % 16)]

def quotePlusL (l : List Char) : List Char :=
  (utf8Encode l).flatMap quotePlusByte

/-- `urllib.parse.parse_qsl(query, keep_blank_values=True)`: split on
`&`, skip empty chunks, split each chunk at the first `=` (a chunk
without `=` keeps a blank value), then `+`-to-space and percent-decode
both name and value. -/
def parse_qsl (q : List Char) : List (List Char × List Char) :=
  if q = [] then []
  else
    (splitAll '&' q).filterMap fun nv =>
      if nv = [] then none
      else
        match splitFirst '=' nv with
        | some (n, v) => some (unquotePlusL n, unquotePlusL v)
        | none => some (unquotePlusL nv, [])

/-- `urllib.parse.urlencode(pairs, doseq=True)` over string pairs:
`quote_plus` each side, join with `=` and `&`. -/
def urlencodePairs (pairs : List (List Char × List Char)) : List Char :=
  List.intercalate ['&'] (pairs.map (fun kv => quotePlusL kv.1 ++ '=' :: quotePlusL kv.2))

/-! ## `urllib.parse.urlparse` (CPython 3.11) -/

/-- One dotted-decimal IPv4 octet per `ipaddress._parse_octet`: 1–3
ASCII digits, no leading zero, value ≤ 255. -/
def ipv4OctetOk (p : List Char) : Bool :=
  p ≠ [] && p.length ≤ 3 && p.all isAsciiDigit &&
  !(decide (1 < p.length) && p.headD ' ' = '0') &&
  p.foldl (fun a c => a * 10 + (c.toNat - '0'.toNat)) 0 ≤ 255

def isIPv4 (s : List Char) : Bool :=
  let parts := splitAll '.' s
  parts.length = 4 && parts.all ipv4OctetOk

/-- One IPv6 hextet per `ipaddress._parse_hextet`: 1–4 hex digits. -/
def hextetOk (p : List Char) : Bool :=
  p ≠ [] && p.length ≤ 4 && p.all isHexDigitChar

/-- The `'::'`-skip arithmetic of `ipaddress._BaseV6._ip_int_from_string`
applied to the `':'`-separated parts. -/
def ipv6PartsOk (parts : List (List Char)) : Bool :=
  let n := parts.length
  if n < 3 || n > 9 then false
  else
    match (List.range n).filter
        (fun i => decide (0 < i) && decide (i < n - 1) && parts.getD i ['#'] = []) with
    | [] => n = 8 && parts.all hextetOk
    | [i] =>
      let e0 := parts.getD 0 ['#'] = []
      let e1 := parts.getD (n - 1) ['#'] = []
      let hi := i - (if e0 then 1 else 0)
      let lo := (n - i - 1) - (if e1 then 1 else 0)
      (!e0 || decide (hi = 0)) && (!e1 || decide (lo = 0)) &&
      decide (hi + lo ≤ 7) &&
      (parts.take hi).all hextetOk && (parts.drop (n - lo)).all hextetOk
    | _ => false

/-- `ipaddress.IPv6Address` acceptance of a textual address: an
optional non-empty `%scope` (without a further `%`), an optional
embedded IPv4 suffix (replaced by two hextets), and the hextet/`::`
grammar. -/
def isIPv6 (s : List Char) : Bool :=
  let core := fun (addr : List Char) =>
    if addr = [] then false
    else
      let parts0 := splitAll ':' addr
      let parts :=
        if (parts0.getLastD ['#']).contains '.' then
          if isIPv4 (parts0.getLastD ['#']) then parts0.dropLast ++ [['0'], ['0']]
          else [[]]
        else parts0
      parts ≠ [[]] && ipv6PartsOk parts
  match splitFirst '%' s with
  | none => core s
  | some (addr, scope) => scope ≠ [] && !scope.contains '%' && core addr

/-- `urllib.parse._check_bracketed_host`: an IPvFuture literal
`v<hex>+.<anything>+`, or a textual IPv6 address (an IPv4 or unparsable
bracketed host raises, which `classify_url` turns into a rejection). -/
def validBracketedHost (h : List Char) : Bool :=
  match h with
  | 'v' :: rest =>
    let hexs := rest.takeWhile isHexDigitChar
    hexs ≠ [] &&
    (match rest.drop hexs.length with
     | '.' :: tl => tl ≠ []
     | _ => false)
  | _ => isIPv6 h

def schemeCharOk (c : Char) : Bool :=
  isAsciiAlpha c || isAsciiDigit c || c = '+' || c = '-' || c = '.'

def c0OrSpace (c : Char) : Bool := c.toNat ≤ 0x20

/-- `urllib.parse._splitnetloc`: everything up to the first of `/?#`. -/
def splitNetloc (l : List Char) : List Char × List Char :=
  let netloc := l.takeWhile (fun c => c ≠ '/' && c ≠ '?' && c ≠ '#')
  (netloc, l.drop netloc.length)

structure SplitResult where
  scheme : List Char
  netloc : List Char
  path : List Char
  query : List Char
  fragment : List Char
deriving DecidableEq, Repr

/-- `urllib.parse.urlsplit(url)` (3.11): WHATWG lstrip, tab/CR/LF
removal, scheme detection (lowercased), `//netloc` with bracketed-host
validation, then `#fragment` and `?query` splits.  `none` models the
`ValueError` raises.  `_checknetloc`'s NFKC check — which can reject
only non-ASCII netlocs — is modelled as accepting. -/
def pyUrlsplit (s : String) : Option SplitResult :=
  let u0 := (s.data.dropWhile c0OrSpace).filter
    (fun c => c ≠ '\t' && c ≠ '\r' && c ≠ '\n')
  let (scheme, u1) :=
    match findIdx ':' u0 with
    | some i =>
      if 0 < i && isAsciiAlpha (u0.headD ' ') && (u0.take i).all schemeCharOk
      then (lowerL (u0.take i), u0.drop (i + 1))
      else ([], u0)
    | none => ([], u0)
  if u1.take 2 = ['/', '/'] then
    let (netloc, u2) := splitNetloc (u1.drop 2)
    let hasL := netloc.contains '['
    let hasR := netloc.contains ']'
    if hasL != hasR then none
    else if hasL && hasR then
      let afterL := ((splitFirst '[' netloc).map (·.2)).getD []
      let bracketed := ((splitFirst ']' afterL).map (·.1)).getD afterL
      if validBracketedHost bracketed then some (splitRest scheme netloc u2)
      else none
    else some (splitRest scheme netloc u2)
  else some (splitRest scheme [] u1)
where
  /-- the fragment and query splits shared by all branches. -/
  splitRest (scheme netloc u : List Char) : SplitResult :=
    let (u3, fragment) := ((splitFirst '#' u).getD (u, []))
    let (path, query) := ((splitFirst '?' u3).getD (u3, []))
    ⟨scheme, netloc, path, query, fragment⟩

structure ParseResult where
  scheme : List Char
  netloc : List Char
  path : List Char
  params : List Char
  query : List Char
  fragment : List Char
deriving DecidableEq, Repr

/-- `urllib.parse._splitparams`: split `;params` out of the last path
segment. -/
def splitParams (path : List Char) : List Char × List Char :=
  if path.contains '/' then
    let ri := path.length - 1 - (((path.reverse.findIdx? (· = '/'))).getD 0)
    match (findIdx ';' (path.drop ri)).map (· + ri) with
    | none => (path, [])
    | some i => (path.take i, path.drop (i + 1))
  else
    match findIdx ';' path with
    | none => (path, [])
    | some i => (path.take i, path.drop (i + 1))

/-- `urllib.parse.urlparse(url)`: `urlsplit` plus the params split. -/
def pyUrlparse (s : String) : Option ParseResult :=
  (pyUrlsplit s).map fun r =>
    if r.path.contains ';' then
      let (p, params) := splitParams r.path
      ⟨r.scheme, r.netloc, p, params, r.query, r.fragment⟩
    else ⟨r.scheme, r.netloc, r.path, [], r.query, r.fragment⟩

/-- `urllib.parse.urlunsplit` on code-point lists. -/
def pyUrlunsplit (scheme netloc path query fragment : List Char) : List Char :=
  let url1 :=
    if netloc ≠ [] || path.take 2 = ['/', '/'] then
      let p := if path ≠ [] && path.headD ' ' ≠ '/' then '/' :: path else path
      '/' :: '/' :: (netloc ++ p)
    else path
  let url2 := if scheme ≠ [] then scheme ++ ':' :: url1 else url1
  let url3 := if query ≠ [] then url2 ++ '?' :: query else url2
  if fragment ≠ [] then url3 ++ '#' :: fragment else url3

/-- `urllib.parse.urlunparse` (params are re-attached to the path). -/
def pyUrlunparse (scheme netloc path params query fragment : List Char) :
    List Char :=
  let p := if params ≠ [] then path ++ ';' :: params else path
  pyUrlunsplit scheme netloc p query fragment

/-! ## `src/url_extractors.py` -/

inductive Platform where
  | tiktok
  | instagram
  | x
deriving DecidableEq, Repr

/-- The `StrEnum` value of a platform. -/
def Platform.value : Platform → String
  | .tiktok => "tiktok"
  | .instagram => "instagram"
  | .x => "x"

structure ExtractedUrl where
  input_url : String
  normalized_url : String
  platform : Platform
deriving DecidableEq, Repr

/-- The characters of `_clean_candidate`'s `rstrip`: `).,;!?"'`. -/
def trailingPunct (c : Char) : Bool :=
  c = ')' || c = '.' || c = ',' || c = ';' || c = '!' || c = '?' ||
  c = '"' || c = '\''

/-- `_clean_candidate`: `url.strip().rstrip(").,;!?\"'")`. -/
def cleanCandidateL (l : List Char) : List Char :=
  pyRStrip trailingPunct (pyStripL l)

/-- `_normalize_host`: strip + lower, drop userinfo at the first `@`,
drop the port at the first `:`, drop a leading `www.`. -/
def normalizeHostL (netloc : List Char) : List Char :=
  let h0 := lowerL (pyStripL netloc)
  let h1 := match splitFirst '@' h0 with
    | some p => p.2
    | none => h0
  let h2 := match splitFirst ':' h1 with
    | some p => p.1
    | none => h1
  if h2.take 4 = "www.".data then h2.drop 4 else h2

/-- Whether a (lowered) query key is dropped by `_strip_tracking_query`:
a `utm_` prefix or membership in `TRACKING_QUERY_KEYS = {si, feature,
igshid}`. -/
def trackingKey (k : List Char) : Bool :=
  let lk := lowerL k
  lk.take 4 = "utm_".data || lk = "si".data || lk = "feature".data ||
  lk = "igshid".data

/-- `_strip_tracking_query`: keep the non-tracking pairs of
`parse_qsl(query, keep_blank_values=True)`, sort by the `(key, value)`
tuple, re-encode with `urlencode(doseq=True)`. -/
def strip_tracking_query (q : List Char) : List Char :=
  let kept := (parse_qsl q).filter (fun kv => !trackingKey kv.1)
  urlencodePairs (pySortBy pairLe kept)

/-- The body of `normalize_url` applied to an already-parsed URL (the
source re-parses the same string it classified; parsing is
deterministic, so the parse result is shared here). -/
def normalizeFromParts (pr : ParseResult) : List Char :=
  let host := normalizeHostL pr.netloc
  let path0 := if pr.path = [] then ['/'] else pr.path
  let path :=
    if path0 = ['/'] then path0
    else
      let r := pyRStrip (· = '/') path0
      if r = [] then ['/'] else r
  let query := strip_tracking_query pr.query
  pyUrlunparse "https".data host path [] query []

/-- `normalize_url(url)`; `none` when `urlparse` raises. -/
def normalize_url (url : String) : Option String :=
  (pyUrlparse url).map (fun pr => String.mk (normalizeFromParts pr))

/-- `"x" in s` substring test on code-point lists. -/
def subList (needle : List Char) : List Char → Bool
  | [] => needle.isEmpty
  | c :: rest => needle.isPrefixOf (c :: rest) || subList needle rest

/-- `_is_tiktok`: `host.endswith("tiktok.com")`. -/
def is_tiktok (host : List Char) : Bool :=
  List.isSuffixOf "tiktok.com".data host

/-- `_is_instagram`: an `instagram.com` host suffix and one of
`/reel/`, `/p/`, `/tv/` inside the lowered path. -/
def is_instagram (host path : List Char) : Bool :=
  List.isSuffixOf "instagram.com".data host &&
  (let lowered := lowerL path
   subList "/reel/".data lowered || subList "/p/".data lowered ||
   subList "/tv/".data lowered)

/-- `TWITTER_STATUS_RE.match(path)`: `^/[^/]+/status/\d+` with
`re.IGNORECASE` (the digit class is modelled as ASCII digits). -/
def matchXStatus (path : List Char) : Bool :=
  match path with
  | '/' :: rest =>
    let seg := rest.takeWhile (· ≠ '/')
    if seg = [] then false
    else
      let after := rest.drop seg.length
      if lowerL (after.take 8) = "/status/".data then
        match after.drop 8 with
        | d :: _ => isAsciiDigit d
        | [] => false
      else false
  | _ => false

/-- `_is_x_status`: exact host match against
`{x.com, twitter.com, mobile.twitter.com}` plus the status-path regex. -/
def is_x_status (host path : List Char) : Bool :=
  (host = "x.com".data || host = "twitter.com".data ||
   host = "mobile.twitter.com".data) &&
  matchXStatus path

/-- `classify_url(url)`. -/
def classify_url (url : String) : Option ExtractedUrl :=
  let cleaned := cleanCandidateL url.data
  match pyUrlparse (String.mk cleaned) with
  | none => none
  | some pr =>
    if !(lowerL pr.scheme = "http".data || lowerL pr.scheme = "https".data)
    then none
    else
      let host := normalizeHostL pr.netloc
      let path := if pr.path = [] then ['/'] else pr.path
      let platform : Option Platform :=
        if is_tiktok host then some .tiktok
        else if is_instagram host path then some .instagram
        else if is_x_status host path then some .x
        else none
      platform.map fun p =>
        ⟨String.mk cleaned, String.mk (normalizeFromParts pr), p⟩

/-- Length of the match of `URL_RE = https?://\S+` (case-insensitive)
anchored at the head of the list, if any. -/
def urlMatchLen (l : List Char) : Option Nat :=
  match l with
  | h :: t1 :: t2 :: p :: rest =>
    if lowerL [h, t1, t2, p] = "http".data then
      let (rest2, consumed) :=
        match rest with
        | s :: r2 => if pyLowerChar s = 's' then (r2, 5) else (rest, 4)
        | [] => (rest, 4)
      match rest2 with
      | ':' :: '/' :: '/' :: r3 =>
        let body := r3.takeWhile (fun c => !pyIsSpace c)
        if body = [] then none else some (consumed + 3 + body.length)
      | _ => none
    else none
  | _ => none

/-- Fuel-indexed worker for `findallUrls`; the fuel starts at the text
length and every step consumes at least one character. -/
def findallUrlsFuel : Nat → List Char → List (List Char)
  | 0, _ => []
  | _, [] => []
  | fuel + 1, c :: rest =>
    match urlMatchLen (c :: rest) with
    | some n => (c :: rest).take n :: findallUrlsFuel fuel (rest.drop (n - 1))
    | none => findallUrlsFuel fuel rest

/-- `URL_RE.findall(text)`: leftmost, non-overlapping matches. -/
def findallUrls (l : List Char) : List (List Char) :=
  findallUrlsFuel l.length l

/-- `extract_supported_urls(text)`: classify every match, keep the first
occurrence per `normalized_url`. -/
def extract_supported_urls (text : String) : List ExtractedUrl :=
  if text = "" then []
  else
    ((findallUrls text.data).foldl
      (fun (acc : List ExtractedUrl × List String) m =>
        match classify_url (String.mk m) with
        | none => acc
        | some cl =>
          if cl.normalized_url ∈ acc.2 then acc
          else (acc.1 ++ [cl], acc.2 ++ [cl.normalized_url]))
      ([], [])).1

/-! ## `src/job_store.py`

The two JSONL files are lists of typed records.  `uuid.uuid4()` and
`datetime.now()` are oracle arguments (`ids`, `times`, `now`); the
reachability relation states uuid freshness as a hypothesis. -/

inductive Status where
  | queued
  | running
  | done
  | failed
deriving DecidableEq, Repr

/-- `ACTIVE_STATUSES = {queued, running}`. -/
def activeStatus : Status → Bool
  | .queued => true
  | .running => true
  | _ => false

/-- The downloader's result payload; the store treats it as an opaque
JSON object, so it is opaque here too. -/
abbrev DownloadResult := String

structure Subscriber where
  chat_id : Int
  message_id : Int
  thread_id : Option Int
  requested_at : String
deriving DecidableEq, Repr

structure Notification where
  last_event_id : Option String
  callback_attempts : Nat
  callback_error : Option String
deriving DecidableEq, Repr

structure JobRecord where
  job_id : String
  input_url : String
  normalized_url : String
  platform : String
  status : Status
  attempts : Nat
  max_attempts : Nat
  created_at : String
  updated_at : String
  result : Option DownloadResult
  error : Option String
  subscribers : List Subscriber
  notification : Notification
  claimed_by : Option String
deriving DecidableEq, Repr

/-- A `results_file` line: either the `done` shape or the `failed`
shape (absent keys are `none`). -/
structure ResultRecord where
  job_id : String
  status : Status
  result : Option DownloadResult
  error : Option String
  attempts : Option Nat
  max_attempts : Option Nat
  created_at : String
  updated_at : String
deriving DecidableEq, Repr

/-- Python-dict insertion: replace in place when the id exists,
append otherwise. -/
def upsertBy (idOf : α → String) (acc : List α) (r : α) : List α :=
  if acc.any (fun x => idOf x = idOf r) then
    acc.map (fun x => if idOf x = idOf r then r else x)
  else acc ++ [r]

/-- Last record per id, skipping empty ids, in first-insertion order —
the shared logic of `_materialize_jobs_locked` and
`_compact_latest_by_job_id`. -/
def latestById (idOf : α → String) (rows : List α) : List α :=
  rows.foldl (fun acc r => if idOf r = "" then acc else upsertBy idOf acc r) []

/-- `_materialize_jobs_locked` (the dict's values in insertion order). -/
def materialize (rows : List JobRecord) : List JobRecord :=
  latestById (·.job_id) rows

/-- The `(created_at, updated_at, job_id)` compaction sort key. -/
def recordKey (createdAt updatedAt jobId : String) :
    List Char × List Char × List Char :=
  (createdAt.data, updatedAt.data, jobId.data)

/-- `_compact_latest_by_job_id`: keep the latest record per id and
rewrite sorted by `(created_at, updated_at, job_id)` (a no-op on an
empty row list). -/
def compact_latest_by_job_id (idOf : α → String)
    (keyOf : α → List Char × List Char × List Char) (rows : List α) :
    List α :=
  if rows.isEmpty then rows
  else pySortBy (fun a b => tripleLe (keyOf a) (keyOf b)) (latestById idOf rows)

def compactQueue (rows : List JobRecord) : List JobRecord :=
  compact_latest_by_job_id (·.job_id)
    (fun r => recordKey r.created_at r.updated_at r.job_id) rows

def compactResults (rows : List ResultRecord) : List ResultRecord :=
  compact_latest_by_job_id (·.job_id)
    (fun r => recordKey r.created_at r.updated_at r.job_id) rows

structure StoreState where
  queue : List JobRecord
  results : List ResultRecord
deriving DecidableEq, Repr

/-- The constructor arguments of `JobStore`. -/
structure StoreConfig where
  max_attempts : Int
  compact_after_lines : Int
deriving DecidableEq, Repr

/-- `self.max_attempts = max(1, int(max_attempts))`. -/
def storeMaxAttempts (cfg : StoreConfig) : Nat :=
  (max 1 cfg.max_attempts).toNat

/-- `self.compact_after_lines = max(100, int(compact_after_lines))`. -/
def storeCompactAfter (cfg : StoreConfig) : Nat :=
  (max 100 cfg.compact_after_lines).toNat

/-- `_maybe_compact_locked`. -/
def maybeCompact (cfg : StoreConfig) (st : StoreState) : StoreState :=
  ⟨if st.queue.length > storeCompactAfter cfg then compactQueue st.queue
    else st.queue,
   if st.results.length > storeCompactAfter cfg then compactResults st.results
    else st.results⟩

/-- `_same_subscriber`: equality of the
`(chat_id, message_id, thread_id)` triple. -/
def same_subscriber (a b : Subscriber) : Bool :=
  a.chat_id = b.chat_id && a.message_id = b.message_id &&
  a.thread_id = b.thread_id

/-- `_append_subscriber_if_missing`. -/
def append_subscriber_if_missing (subscribers : List Subscriber)
    (subscriber : Subscriber) : List Subscriber × Bool :=
  if subscribers.any (fun s => same_subscriber s subscriber) then
    (subscribers, false)
  else (subscribers ++ [subscriber], true)

/-- The `active_by_url` dict comprehension over the materialized jobs. -/
def activeByUrl (jobs : List JobRecord) : List (String × JobRecord) :=
  jobs.foldl
    (fun d j =>
      if activeStatus j.status then
        if d.any (fun e => e.1 = j.normalized_url) then
          d.map (fun e => if e.1 = j.normalized_url then (e.1, j) else e)
        else d ++ [(j.normalized_url, j)]
      else d)
    []

def dictGet (d : List (String × JobRecord)) (k : String) : Option JobRecord :=
  (d.find? (fun e => e.1 = k)).map (·.2)

/-- One output row of `enqueue_many`. -/
structure EnqueueRow where
  job_id : String
  status : Status
  deduplicated : Bool
  input_url : String
  normalized_url : String
  platform : String
deriving DecidableEq, Repr

/-- The caller-supplied `subscriber` mapping (its `chat_type` key is
not read by the store). -/
structure SubscriberInput where
  chat_id : Int
  message_id : Int
  thread_id : Option Int
deriving DecidableEq, Repr

/-- The `for item in inputs` loop of `enqueue_many`; `i` indexes the
oracle streams (`ids i` is the `uuid4` drawn for a job created at
input position `i`, `times i` the `_now()` drawn for a merge there). -/
def enqueueLoop (cfg : StoreConfig) (subRow : Subscriber) (now : String)
    (ids times : Nat → String) :
    List ExtractedUrl → Nat → List JobRecord → List (String × JobRecord) →
    List EnqueueRow → List EnqueueRow × List JobRecord
  | [], _, queue, _, outs => (outs, queue)
  | item :: rest, i, queue, active, outs =>
    match dictGet active item.normalized_url with
    | some existing =>
      let (merged, changed) :=
        append_subscriber_if_missing existing.subscribers subRow
      let updated :=
        if changed then
          { existing with subscribers := merged, updated_at := times i }
        else existing
      let queue' := if changed then queue ++ [updated] else queue
      let active' :=
        if changed then
          active.map (fun e =>
            if e.1 = item.normalized_url then (e.1, updated) else e)
        else active
      let row : EnqueueRow :=
        ⟨updated.job_id, updated.status, true, updated.input_url,
         updated.normalized_url, updated.platform⟩
      enqueueLoop cfg subRow now ids times rest (i + 1) queue' active'
        (outs ++ [row])
    | none =>
      let job : JobRecord :=
        { job_id := ids i
          input_url := item.input_url
          normalized_url := item.normalized_url
          platform := (item.platform.value)
          status := .queued
          attempts := 0
          max_attempts := storeMaxAttempts cfg
          created_at := now
          updated_at := now
          result := none
          error := none
          subscribers := [subRow]
          notification := ⟨none, 0, none⟩
          claimed_by := none }
      let row : EnqueueRow :=
        ⟨job.job_id, .queued, false, item.input_url, item.normalized_url,
         item.platform.value⟩
      enqueueLoop cfg subRow now ids times rest (i + 1) (queue ++ [job])
        (active ++ [(item.normalized_url, job)]) (outs ++ [row])

/-- `enqueue_many(inputs, subscriber=subscriber)`. -/
def enqueue_many (cfg : StoreConfig) (st : StoreState)
    (inputs : List ExtractedUrl) (sub : SubscriberInput) (now : String)
    (ids times : Nat → String) : List EnqueueRow × StoreState :=
  if inputs = [] then ([], st)
  else
    let subRow : Subscriber := ⟨sub.chat_id, sub.message_id, sub.thread_id, now⟩
    let active := activeByUrl (materialize st.queue)
    let (outs, q) := enqueueLoop cfg subRow now ids times inputs 0 st.queue active []
    (outs, maybeCompact cfg ⟨q, st.results⟩)

/-- The `(created_at, job_id)` FIFO sort key of `claim_next`. -/
def claimLe (a b : JobRecord) : Bool :=
  pairLe (a.created_at.data, a.job_id.data) (b.created_at.data, b.job_id.data)

/-- `claim_next(worker_id=worker_id)`. -/
def claim_next (cfg : StoreConfig) (st : StoreState) (worker_id now : String) :
    Option JobRecord × StoreState :=
  let queuedL := (materialize st.queue).filter (fun j => j.status = .queued)
  match pySortBy claimLe queuedL with
  | [] => (none, st)
  | j :: _ =>
    let job := { j with
      status := .running
      attempts := j.attempts + 1
      updated_at := now
      claimed_by := some worker_id
      error := none }
    (some job, maybeCompact cfg ⟨st.queue ++ [job], st.results⟩)

/-- `mark_done(job_id=job_id, result=result)`. -/
def mark_done (cfg : StoreConfig) (st : StoreState) (job_id : String)
    (result : DownloadResult) (now : String) : Option JobRecord × StoreState :=
  match (materialize st.queue).find? (fun j => j.job_id = job_id) with
  | none => (none, st)
  | some current =>
    let job := { current with
      status := .done
      updated_at := now
      result := some result
      error := none }
    let res : ResultRecord :=
      ⟨job_id, .done, some result, none, none, none, job.created_at, now⟩
    (some job, maybeCompact cfg ⟨st.queue ++ [job], st.results ++ [res]⟩)

/-- `mark_failed_or_retry(job_id=job_id, error=error)`. -/
def mark_failed_or_retry (cfg : StoreConfig) (st : StoreState)
    (job_id error : String) (now : String) :
    (Option JobRecord × Option Status) × StoreState :=
  match (materialize st.queue).find? (fun j => j.job_id = job_id) with
  | none => ((none, none), st)
  | some current =>
    let attempts := current.attempts
    let maxA :=
      if current.max_attempts = 0 then storeMaxAttempts cfg
      else current.max_attempts
    if attempts < maxA then
      let job := { current with
        error := some error
        updated_at := now
        status := .queued }
      ((some job, some .queued), maybeCompact cfg ⟨st.queue ++ [job], st.results⟩)
    else
      let job := { current with
        error := some error
        updated_at := now
        status := .failed }
      let res : ResultRecord :=
        ⟨job_id, .failed, none, some error, some attempts, some maxA,
         job.created_at, now⟩
      ((some job, some .failed),
       maybeCompact cfg ⟨st.queue ++ [job], st.results ++ [res]⟩)

/-- `mark_notification(job_id=job_id, event_id=event_id,
callback_error=callback_error)`. -/
def mark_notification (cfg : StoreConfig) (st : StoreState)
    (job_id event_id : String) (callback_error : Option String)
    (now : String) : Option JobRecord × StoreState :=
  match (materialize st.queue).find? (fun j => j.job_id = job_id) with
  | none => (none, st)
  | some current =>
    let job := { current with
      notification :=
        ⟨some event_id, current.notification.callback_attempts + 1,
         callback_error⟩
      updated_at := now }
    (some job, maybeCompact cfg ⟨st.queue ++ [job], st.results⟩)

/-- `get_job(job_id)`. -/
def get_job (st : StoreState) (job_id : String) : Option JobRecord :=
  (materialize st.queue).find? (fun j => j.job_id = job_id)

/-- Freshness of the uuid oracle for one `enqueue_many` call: the drawn
ids are non-empty, absent from the log, and pairwise distinct. -/
def FreshIds (st : StoreState) (ids : Nat → String) (n : Nat) : Prop :=
  (∀ i, i < n → ids i ≠ "" ∧ ids i ∉ st.queue.map (·.job_id)) ∧
  (∀ i j, i < n → j < n → i ≠ j → ids i ≠ ids j)

/-- One public `JobStore` operation. -/
inductive Step (cfg : StoreConfig) : StoreState → StoreState → Prop where
  | enqueue (st : StoreState) (inputs : List ExtractedUrl)
      (sub : SubscriberInput) (now : String) (ids times : Nat → String) :
      FreshIds st ids inputs.length →
      Step cfg st (enqueue_many cfg st inputs sub now ids times).2
  | claim (st : StoreState) (w now : String) :
      Step cfg st (claim_next cfg st w now).2
  | markDone (st : StoreState) (id : String) (result : DownloadResult)
      (now : String) : Step cfg st (mark_done cfg st id result now).2
  | markFail (st : StoreState) (id err now : String) :
      Step cfg st (mark_failed_or_retry cfg st id err now).2
  | markNotif (st : StoreState) (id eid : String) (cberr : Option String)
      (now : String) : Step cfg st (mark_notification cfg st id eid cberr now).2

/-- States reachable from empty log files by public operations. -/
inductive Reachable (cfg : StoreConfig) : StoreState → Prop where
  | init : Reachable cfg ⟨[], []⟩
  | step {s s' : StoreState} : Reachable cfg s → Step cfg s s' →
      Reachable cfg s'

/-! ## `src/telegram_bot.py` — the callback half of `TelegramBotRuntime`

`_event_ids` (a `set`), `_event_id_order` (a `deque(maxlen=5000)`, head
oldest) and `_event_queue` (the dispatch queue) form the state touched
by `_mark_event_seen` / `handle_callback_request`; both methods run
under locks, so they are pure state transformers here. -/

/-- A decoded request body.  The callback server reads only `event_id`
and `status`; the rest of the JSON object travels opaquely to the
dispatch queue and is carried here by `rest`. -/
structure CallbackPayload where
  event_id : Option String
  status : Option String
  rest : String
deriving DecidableEq, Repr

structure BotState where
  event_ids : List String
  event_id_order : List String
  event_queue : List CallbackPayload
deriving DecidableEq, Repr

def emptyBotState : BotState := ⟨[], [], []⟩

/-- `_mark_event_seen(event_id)`: `True` on a dedup hit; otherwise
evict the oldest id when the deque is at its 5000 capacity, then
record the id. -/
def mark_event_seen (st : BotState) (event_id : String) : Bool × BotState :=
  if event_id ∈ st.event_ids then (true, st)
  else
    let (order, idsSet) :=
      if st.event_id_order.length = 5000 then
        match st.event_id_order with
        | [] => (st.event_id_order, st.event_ids)
        | dropped :: tl => (tl, st.event_ids.erase dropped)
      else (st.event_id_order, st.event_ids)
    (false, ⟨idsSet ++ [event_id], order ++ [event_id], st.event_queue⟩)

/-- A JSON response body; an absent `duplicate` key is `false` here. -/
structure CallbackResponse where
  ok : Bool
  error : Option String
  duplicate : Bool
deriving DecidableEq, Repr

/-- `str(x or "")` for an optional string. -/
def pyOrEmpty : Option String → String
  | none => ""
  | some s => s

/-- `handle_callback_request(token=token, payload=payload)`: the HTTP
status code, the response body, and the successor state. -/
def handle_callback_request (secret : String) (st : BotState)
    (token : Option String) (payload : CallbackPayload) :
    (Nat × CallbackResponse) × BotState :=
  if token ≠ some secret then
    ((401, ⟨false, some "unauthorized", false⟩), st)
  else
    let event_id := pyStrip (pyOrEmpty payload.event_id)
    if event_id = "" then
      ((400, ⟨false, some "missing event_id", false⟩), st)
    else
      let status := pyLower (pyOrEmpty payload.status)
      if !(status = "done" || status = "failed") then
        ((400, ⟨false, some "invalid status", false⟩), st)
      else
        match mark_event_seen st event_id with
        | (true, st') => ((200, ⟨true, none, true⟩), st')
        | (false, st') =>
          ((200, ⟨true, none, false⟩),
           ⟨st'.event_ids, st'.event_id_order, st'.event_queue ++ [payload]⟩)

/-- `_build_event_payload(job, status)` of `src/worker.py`, restricted
to the fields the callback server validates; the remaining payload
fields ride in `rest`. -/
def build_event_payload (job : JobRecord) (status : String) :
    CallbackPayload :=
  ⟨some (job.job_id ++ ":" ++ status ++ ":" ++ toString job.attempts),
   some status, job.job_id⟩

structure CallbackRequest where
  token : Option String
  payload : CallbackPayload
deriving DecidableEq, Repr

/-- Folding a sequence of requests through the callback handler. -/
def processRequests (secret : String) (st : BotState) :
    List CallbackRequest → BotState
  | [] => st
  | r :: tl =>
    processRequests secret
      (handle_callback_request secret st r.token r.payload).2 tl

/-- Whether the handler accepts `r` as a fresh (non-duplicate) event in
state `st`, extending the dedup deque. -/
def freshAccept (secret : String) (st : BotState) (r : CallbackRequest) :
    Bool :=
  r.token = some secret &&
  (let eid := pyStrip (pyOrEmpty r.payload.event_id)
   let s := pyLower (pyOrEmpty r.payload.status)
   eid ≠ "" && (s = "done" || s = "failed") && !(st.event_ids.contains eid))

/-- How many requests of the sequence are accepted as fresh events
(i.e. how many ids enter the dedup deque along the run). -/
def countFresh (secret : String) (st : BotState) :
    List CallbackRequest → Nat
  | [] => 0
  | r :: tl =>
    (if freshAccept secret st r then 1 else 0) +
    countFresh secret (handle_callback_request secret st r.token r.payload).2 tl

/-- The runtime invariant of the dedup window: the set and the deque
hold the same ids, without duplicates, and the deque respects its
capacity (true initially and preserved by every request). -/
def BotWF (st : BotState) : Prop :=
  st.event_id_order.Nodup ∧ st.event_ids.Nodup ∧
  (∀ x, x ∈ st.event_ids ↔ x ∈ st.event_id_order) ∧
  st.event_id_order.length ≤ 5000

/-- The `(chat_id, message_id, thread_id)` identity of a subscriber
(the spec's notion of a distinct subscriber). -/
def subTriple (s : Subscriber) : Int × Int × Option Int :=
  (s.chat_id, s.message_id, s.thread_id)

/-- The C2 scenario: starting from empty log files, a sequence of
`enqueue_many` calls whose inputs all carry the same normalized URL
`u`, interleaved with `claim_next` calls; `ts` accumulates the
subscriber triple presented by each `enqueue_many` call. -/
inductive SameUrlTrace (cfg : StoreConfig) (u : String) :
    StoreState → List (Int × Int × Option Int) → Prop where
  | init : SameUrlTrace cfg u ⟨[], []⟩ []
  | enqueue {st : StoreState} {ts : List (Int × Int × Option Int)}
      (inputs : List ExtractedUrl) (sub : SubscriberInput)
      (now : String) (ids times : Nat → String) :
      SameUrlTrace cfg u st ts →
      inputs ≠ [] →
      (∀ item ∈ inputs, item.normalized_url = u) →
      FreshIds st ids inputs.length →
      SameUrlTrace cfg u (enqueue_many cfg st inputs sub now ids times).2
        (ts ++ [(sub.chat_id, sub.message_id, sub.thread_id)])
  | claim {st : StoreState} {ts : List (Int × Int × Option Int)}
      (w now : String) :
      SameUrlTrace cfg u st ts →
      SameUrlTrace cfg u (claim_next cfg st w now).2 ts

/-! ## Spec-side host rules for `classify_url`

These predicates restate the classification rules in the spec's own
vocabulary — suffix decompositions of the normalized host, substring
decompositions of the lowered path — to be compared with the code-side
`classify_url`.  The host rule is a plain suffix test: `tiktok.com`
itself, any `*.tiktok.com` subdomain, but also any host merely ending
in the characters `tiktok.com` (such as `xtiktok.com`). -/

/-- The scheme of the parse, case-folded, is `http` or `https`. -/
def specSchemeOk (pr : ParseResult) : Prop :=
  lowerL pr.scheme = "http".data ∨ lowerL pr.scheme = "https".data

/-- The path component as classified: an empty path reads as `/`. -/
def specPath (pr : ParseResult) : List Char :=
  if pr.path = [] then ['/'] else pr.path

/-- Spec-side `tiktok` rule: the cleaned candidate parses with an
http(s) scheme and the normalized host ends in `tiktok.com`. -/
def specTiktokCond (url : String) : Prop :=
  ∃ pr, pyUrlparse (String.mk (cleanCandidateL url.data)) = some pr ∧
    specSchemeOk pr ∧
    ∃ t, t ++ "tiktok.com".data = normalizeHostL pr.netloc

/-- Spec-side `instagram` rule: host ends in `instagram.com` and the
lowered path contains `/reel/`, `/p/` or `/tv/` as a substring. -/
def specInstagramCond (url : String) : Prop :=
  ∃ pr, pyUrlparse (String.mk (cleanCandidateL url.data)) = some pr ∧
    specSchemeOk pr ∧
    (∃ t, t ++ "instagram.com".data = normalizeHostL pr.netloc) ∧
    (∃ u v, u ++ "/reel/".data ++ v = lowerL (specPath pr) ∨
            u ++ "/p/".data ++ v = lowerL (specPath pr) ∨
            u ++ "/tv/".data ++ v = lowerL (specPath pr))

/-- Spec-side `x` rule: host is exactly `x.com`, `twitter.com` or
`mobile.twitter.com`, and the path decomposes as
`/<segment>/status/<digit>...` with a non-empty slash-free first
segment and `status` matched case-insensitively. -/
def specXCond (url : String) : Prop :=
  ∃ pr, pyUrlparse (String.mk (cleanCandidateL url.data)) = some pr ∧
    specSchemeOk pr ∧
    (normalizeHostL pr.netloc = "x.com".data ∨
     normalizeHostL pr.netloc = "twitter.com".data ∨
     normalizeHostL pr.netloc = "mobile.twitter.com".data) ∧
    ∃ seg mid d rest,
      specPath pr = '/' :: (seg ++ '/' :: (mid ++ '/' :: d :: rest)) ∧
      seg ≠ [] ∧ '/' ∉ seg ∧ lowerL mid = "status".data ∧
      isAsciiDigit d = true

/-! ## Order lemmas for the Python string / tuple comparisons -/

theorem lexLt_irrefl (l : List Char) : lexLt l l = false := by
  induction l with
  | nil => rfl
  | cons a as ih => simp [lexLt, ih]

theorem lexLt_trans {a b c : List Char} (h1 : lexLt a b = true)
    (h2 : lexLt b c = true) : lexLt a c = true := by
  induction a generalizing b c with
  | nil =>
    cases c with
    | nil => cases b <;> simp [lexLt] at h2
    | cons z zs => simp [lexLt]
  | cons x xs ih =>
    cases b with
    | nil => simp [lexLt] at h1
    | cons y ys =>
      cases c with
      | nil => simp [lexLt] at h2
      | cons z zs =>
        simp only [lexLt] at h1 h2 ⊢
        rcases lt_trichotomy x y with hxy | hxy | hxy
        · rcases lt_trichotomy y z with hyz | hyz | hyz
          · simp [lt_trans hxy hyz]
          · subst hyz; simp [hxy]
          · simp [hyz, not_lt_of_lt hyz] at h2
        · subst hxy
          simp [lt_irrefl] at h1
          rcases lt_trichotomy x z with hxz | hxz | hxz
          · simp [hxz]
          · subst hxz
            simp [lt_irrefl] at h2 ⊢
            exact ih h1 h2
          · simp [hxz, not_lt_of_lt hxz] at h2
        · simp [hxy, not_lt_of_lt hxy] at h1

theorem lexLt_conn {a b : List Char} (h1 : lexLt a b = false)
    (h2 : lexLt b a = false) : a = b := by
  induction a generalizing b with
  | nil => cases b <;> simp [lexLt] at h1 ⊢
  | cons x xs ih =>
    cases b with
    | nil => simp [lexLt] at h2
    | cons y ys =>
      simp only [lexLt] at h1 h2
      rcases lt_trichotomy x y with hxy | hxy | hxy
      · simp [hxy] at h1
      · subst hxy
        simp [lt_irrefl] at h1 h2
        exact congrArg (x :: ·) (ih h1 h2)
      · simp [hxy, not_lt_of_lt hxy] at h2

theorem lexLt_asymm {a b : List Char} (h : lexLt a b = true) :
    lexLt b a = false := by
  by_contra hc
  have hba : lexLt b a = true := by
    cases hv : lexLt b a
    · exact absurd hv hc
    · rfl
  have := lexLt_trans h hba
  rw [lexLt_irrefl] at this
  exact Bool.false_ne_true this

theorem lexLe_refl (a : List Char) : lexLe a a = true := by
  simp [lexLe, lexLt_irrefl]

theorem lexLe_trans {a b c : List Char} (h1 : lexLe a b = true)
    (h2 : lexLe b c = true) : lexLe a c = true := by
  simp only [lexLe, Bool.not_eq_true'] at h1 h2 ⊢
  by_contra hc
  have hca : lexLt c a = true := by
    cases hv : lexLt c a
    · exact absurd hv hc
    · rfl
  rcases Bool.eq_false_or_eq_true (lexLt a b) with hab | hab
  · have := lexLt_trans hca hab
    rw [this] at h2
    simp at h2
  · have hae : a = b := lexLt_conn hab h1
    subst hae
    rw [hca] at h2
    simp at h2

theorem lexLe_total (a b : List Char) : lexLe a b = true ∨ lexLe b a = true := by
  simp only [lexLe, Bool.not_eq_true']
  rcases Bool.eq_false_or_eq_true (lexLt b a) with h | h
  · right; exact lexLt_asymm h
  · left; exact h

/-- `pairLe` unfolded into the Python tuple-comparison disjunction. -/
theorem pairLe_iff {a b : List Char × List Char} :
    pairLe a b = true ↔
      lexLt a.1 b.1 = true ∨ (a.1 = b.1 ∧ lexLe a.2 b.2 = true) := by
  unfold pairLe
  rcases Bool.eq_false_or_eq_true (lexLt a.1 b.1) with h1 | h1
  · simp [h1]
  · rcases Bool.eq_false_or_eq_true (lexLt b.1 a.1) with h2 | h2
    · have hne : a.1 ≠ b.1 := by
        intro he
        rw [he, lexLt_irrefl] at h2
        simp at h2
      simp [h1, h2, hne]
    · have he : a.1 = b.1 := lexLt_conn h1 h2
      simp [he, lexLt_irrefl]

theorem pairLe_trans {a b c : List Char × List Char}
    (h1 : pairLe a b = true) (h2 : pairLe b c = true) : pairLe a c = true := by
  rw [pairLe_iff] at h1 h2 ⊢
  rcases h1 with h1 | ⟨he1, hl1⟩
  · rcases h2 with h2 | ⟨he2, _⟩
    · exact Or.inl (lexLt_trans h1 h2)
    · exact Or.inl (he2 ▸ h1)
  · rcases h2 with h2 | ⟨he2, hl2⟩
    · exact Or.inl (he1 ▸ h2)
    · exact Or.inr ⟨he1.trans he2, lexLe_trans hl1 hl2⟩

theorem pairLe_total (a b : List Char × List Char) :
    pairLe a b = true ∨ pairLe b a = true := by
  rw [pairLe_iff, pairLe_iff]
  rcases Bool.eq_false_or_eq_true (lexLt a.1 b.1) with h1 | h1
  · exact Or.inl (Or.inl h1)
  · rcases Bool.eq_false_or_eq_true (lexLt b.1 a.1) with h2 | h2
    · exact Or.inr (Or.inl h2)
    · have he : a.1 = b.1 := lexLt_conn h1 h2
      rcases lexLe_total a.2 b.2 with h3 | h3
      · exact Or.inl (Or.inr ⟨he, h3⟩)
      · exact Or.inr (Or.inr ⟨he.symm, h3⟩)

theorem tripleLe_iff {a b : List Char × List Char × List Char} :
    tripleLe a b = true ↔
      lexLt a.1 b.1 = true ∨ (a.1 = b.1 ∧ pairLe a.2 b.2 = true) := by
  unfold tripleLe
  rcases Bool.eq_false_or_eq_true (lexLt a.1 b.1) with h1 | h1
  · simp [h1]
  · rcases Bool.eq_false_or_eq_true (lexLt b.1 a.1) with h2 | h2
    · have hne : a.1 ≠ b.1 := by
        intro he
        rw [he, lexLt_irrefl] at h2
        simp at h2
      simp [h1, h2, hne]
    · have he : a.1 = b.1 := lexLt_conn h1 h2
      simp [he, lexLt_irrefl]

theorem tripleLe_trans {a b c : List Char × List Char × List Char}
    (h1 : tripleLe a b = true) (h2 : tripleLe b c = true) :
    tripleLe a c = true := by
  rw [tripleLe_iff] at h1 h2 ⊢
  rcases h1 with h1 | ⟨he1, hl1⟩
  · rcases h2 with h2 | ⟨he2, _⟩
    · exact Or.inl (lexLt_trans h1 h2)
    · exact Or.inl (he2 ▸ h1)
  · rcases h2 with h2 | ⟨he2, hl2⟩
    · exact Or.inl (he1 ▸ h2)
    · exact Or.inr ⟨he1.trans he2, pairLe_trans hl1 hl2⟩

theorem tripleLe_total (a b : List Char × List Char × List Char) :
    tripleLe a b = true ∨ tripleLe b a = true := by
  rw [tripleLe_iff, tripleLe_iff]
  rcases Bool.eq_false_or_eq_true (lexLt a.1 b.1) with h1 | h1
  · exact Or.inl (Or.inl h1)
  · rcases Bool.eq_false_or_eq_true (lexLt b.1 a.1) with h2 | h2
    · exact Or.inr (Or.inl h2)
    · have he : a.1 = b.1 := lexLt_conn h1 h2
      rcases pairLe_total a.2 b.2 with h3 | h3
      · exact Or.inl (Or.inr ⟨he, h3⟩)
      · exact Or.inr (Or.inr ⟨he.symm, h3⟩)

theorem insertLe_perm {α : Type} (le : α → α → Bool) (x : α) :
    ∀ l : List α, (insertLe le x l).Perm (x :: l)
  | [] => List.Perm.refl _
  | y :: ys => by
    unfold insertLe
    split
    · exact List.Perm.refl _
    · exact ((insertLe_perm le x ys).cons y).trans (List.Perm.swap x y ys)

theorem pySortBy_perm {α : Type} (le : α → α → Bool) :
    ∀ l : List α, (pySortBy le l).Perm l
  | [] => List.Perm.refl _
  | x :: xs => by
    unfold pySortBy
    exact (insertLe_perm le x (pySortBy le xs)).trans
      ((pySortBy_perm le xs).cons x)

theorem insertLe_sorted {α : Type} {le : α → α → Bool}
    (htrans : ∀ a b c, le a b = true → le b c = true → le a c = true)
    (htotal : ∀ a b, le a b = true ∨ le b a = true) (x : α) :
    ∀ {l : List α}, l.Pairwise (fun a b => le a b = true) →
      (insertLe le x l).Pairwise (fun a b => le a b = true)
  | [], _ => by simp [insertLe]
  | y :: ys, h => by
    unfold insertLe
    rcases List.pairwise_cons.mp h with ⟨hy, hys⟩
    split
    · next hxy =>
      refine List.pairwise_cons.mpr ⟨?_, h⟩
      intro z hz
      rcases List.mem_cons.mp hz with rfl | hz'
      · exact hxy
      · exact htrans x y z hxy (hy z hz')
    · next hxy =>
      refine List.pairwise_cons.mpr ⟨?_, insertLe_sorted htrans htotal x hys⟩
      intro z hz
      have hz' := (insertLe_perm le x ys).subset hz
      rcases List.mem_cons.mp hz' with rfl | hz''
      · rcases htotal y z with h' | h'
        · exact h'
        · exact absurd h' (by simpa using hxy)
      · exact hy z hz''

theorem pySortBy_sorted {α : Type} {le : α → α → Bool}
    (htrans : ∀ a b c, le a b = true → le b c = true → le a c = true)
    (htotal : ∀ a b, le a b = true ∨ le b a = true) :
    ∀ l : List α, (pySortBy le l).Pairwise (fun a b => le a b = true)
  | [] => by simp [pySortBy]
  | x :: xs => by
    unfold pySortBy
    exact insertLe_sorted htrans htotal x (pySortBy_sorted htrans htotal xs)

theorem claimLe_trans {a b c : JobRecord} (h1 : claimLe a b = true)
    (h2 : claimLe b c = true) : claimLe a c = true :=
  pairLe_trans h1 h2

theorem claimLe_total (a b : JobRecord) :
    claimLe a b = true ∨ claimLe b a = true :=
  pairLe_total _ _

/-! ## Generic list lemmas: unique finds, upserts, materialization -/

theorem find?_eq_some_of_unique {α : Type} {p : α → Bool} {l : List α}
    {x : α} (hmem : x ∈ l) (hx : p x = true)
    (huniq : ∀ y ∈ l, p y = true → y = x) : l.find? p = some x := by
  induction l with
  | nil => cases hmem
  | cons a as ih =>
    by_cases ha : p a = true
    · have : a = x := huniq a (List.mem_cons_self a as) ha
      simp [List.find?_cons, this, hx]
    · have hax : x ∈ as := by
        rcases List.mem_cons.mp hmem with h | h
        · exact absurd (h ▸ hx) ha
        · exact h
      have hba : p a = false := by
        cases hv : p a
        · rfl
        · exact absurd hv ha
      simp only [List.find?_cons, hba]
      exact ih hax (fun y hy hpy => huniq y (List.mem_cons_of_mem a hy) hpy)

theorem find?_congr_perm {α : Type} {l l' : List α} (hperm : l.Perm l')
    (p : α → Bool)
    (huniq : ∀ x ∈ l, ∀ y ∈ l, p x = true → p y = true → x = y) :
    l.find? p = l'.find? p := by
  cases hf : l.find? p with
  | none =>
    rw [List.find?_eq_none] at hf
    symm
    rw [List.find?_eq_none]
    intro x hx
    exact hf x (hperm.symm.subset hx)
  | some x =>
    have hx : p x = true := List.find?_some hf
    have hmem : x ∈ l := List.mem_of_find?_eq_some hf
    symm
    exact find?_eq_some_of_unique (hperm.subset hmem) hx
      (fun y hy hpy => huniq y (hperm.symm.subset hy) x hmem hpy hx)

theorem mem_upsertBy {α : Type} {idOf : α → String} {acc : List α} {r x : α}
    (h : x ∈ upsertBy idOf acc r) : x = r ∨ x ∈ acc := by
  unfold upsertBy at h
  split at h
  · rcases List.mem_map.mp h with ⟨y, hy, hyx⟩
    by_cases hid : idOf y = idOf r
    · simp [hid] at hyx
      exact Or.inl hyx.symm
    · simp [hid] at hyx
      exact Or.inr (hyx ▸ hy)
  · rcases List.mem_append.mp h with h | h
    · exact Or.inr h
    · simp at h
      exact Or.inl h

theorem upsertBy_map_id {α : Type} (idOf : α → String) (acc : List α) (r : α)
    (hin : acc.any (fun x => idOf x = idOf r) = true) :
    (upsertBy idOf acc r).map idOf = acc.map idOf := by
  unfold upsertBy
  rw [if_pos hin, List.map_map]
  apply List.map_congr_left
  intro x _
  by_cases hid : idOf x = idOf r
  · simp [hid]
  · simp [hid]

theorem upsertBy_keys_nodup {α : Type} {idOf : α → String} {acc : List α}
    {r : α} (h : (acc.map idOf).Nodup) :
    ((upsertBy idOf acc r).map idOf).Nodup := by
  unfold upsertBy
  split
  · next hin =>
    have : ((acc.map (fun x => if idOf x = idOf r then r else x)).map idOf) =
        acc.map idOf := by
      rw [List.map_map]
      apply List.map_congr_left
      intro x _
      by_cases hid : idOf x = idOf r
      · simp [hid]
      · simp [hid]
    rw [this]
    exact h
  · next hin =>
    rw [List.map_append]
    simp only [List.map_cons, List.map_nil]
    rw [List.nodup_append]
    refine ⟨h, List.nodup_singleton _, ?_⟩
    intro k hk
    simp only [List.mem_singleton]
    intro hkr
    rcases List.mem_map.mp hk with ⟨y, hy, hyk⟩
    have : acc.any (fun x => idOf x = idOf r) = true := by
      rw [List.any_eq_true]
      exact ⟨y, hy, by simp [hyk, hkr]⟩
    exact hin this

theorem foldl_upsert_keys_nodup {α : Type} (idOf : α → String) :
    ∀ (rows acc : List α), (acc.map idOf).Nodup →
      ((rows.foldl (fun acc r => if idOf r = "" then acc
        else upsertBy idOf acc r) acc).map idOf).Nodup
  | [], acc, hacc => hacc
  | r :: rs, acc, hacc => by
    simp only [List.foldl_cons]
    split
    · exact foldl_upsert_keys_nodup idOf rs acc hacc
    · exact foldl_upsert_keys_nodup idOf rs _ (upsertBy_keys_nodup hacc)

theorem latestById_keys_nodup {α : Type} (idOf : α → String)
    (rows : List α) : ((latestById idOf rows).map idOf).Nodup :=
  foldl_upsert_keys_nodup idOf rows [] (by simp)

theorem foldl_upsert_mem {α : Type} (idOf : α → String) {x : α} :
    ∀ (rows acc : List α),
      x ∈ rows.foldl (fun acc r => if idOf r = "" then acc
        else upsertBy idOf acc r) acc →
      x ∈ acc ∨ x ∈ rows
  | [], _, h => Or.inl h
  | r :: rs, acc, h => by
    simp only [List.foldl_cons] at h
    rcases foldl_upsert_mem idOf rs _ h with hc | hc
    · split at hc
      · exact Or.inl hc
      · rcases mem_upsertBy hc with hc' | hc'
        · exact Or.inr (by simp [hc'])
        · exact Or.inl hc'
    · exact Or.inr (List.mem_cons_of_mem r hc)

theorem mem_latestById {α : Type} {idOf : α → String} {rows : List α}
    {x : α} (h : x ∈ latestById idOf rows) : x ∈ rows := by
  rcases foldl_upsert_mem idOf rows [] h with hc | hc
  · cases hc
  · exact hc

/-! ## String lemmas for the callback handler -/

theorem pyStripL_ne_nil {l : List Char} {c : Char} (hc : c ∈ l)
    (hns : pyIsSpace c = false) : pyStripL l ≠ [] := by
  intro h
  unfold pyStripL at h
  have h1 : (l.dropWhile pyIsSpace).reverse.dropWhile pyIsSpace = [] := by
    have := congrArg List.reverse h
    simpa using this
  rw [List.dropWhile_eq_nil_iff] at h1
  have hsplit := List.takeWhile_append_dropWhile pyIsSpace l
  have hcd : c ∈ l.dropWhile pyIsSpace := by
    rcases List.mem_append.mp (hsplit ▸ hc) with h' | h'
    · have := List.mem_takeWhile_imp h'
      rw [hns] at this
      exact absurd this (by simp)
    · exact h'
  have := h1 c (List.mem_reverse.mpr hcd)
  rw [hns] at this
  exact absurd this (by simp)

/-- C1.  The spec says a `status` whose case-folded form is `started`
is accepted by the callback server, and the worker emits a `started`
event on every claim; but `handle_callback_request` only admits `done`
and `failed`, so every worker `started` event — correct token and
non-empty `event_id` included — is answered `400 invalid status` and
the state is untouched.  (The repository's own test
`test_callback_accepts_started_status` asserts the 200 acceptance the
spec describes, so the code contradicts its tests: a code bug.)  This
theorem evaluates the handler on the worker's `started` payload for an
arbitrary job and state. -/
theorem c1_started_event_gets_400_invalid_status (job : JobRecord)
    (secret : String) (st : BotState) :
    handle_callback_request secret st (some secret)
        (build_event_payload job "started") =
      ((400, ⟨false, some "invalid status", false⟩), st) := by
  unfold handle_callback_request build_event_payload
  simp only [ne_eq, not_true_eq_false, if_false, reduceIte]
  have hcolon : ':' ∈ (job.job_id ++ ":" ++ "started" ++ ":" ++
      toString job.attempts).data := by
    simp only [String.data_append]
    refine List.mem_append.mpr (Or.inl ?_)
    refine List.mem_append.mpr (Or.inl ?_)
    refine List.mem_append.mpr (Or.inl ?_)
    refine List.mem_append.mpr (Or.inr ?_)
    simp [String.data]
  have hne : pyStrip (pyOrEmpty (some (job.job_id ++ ":" ++ "started" ++
      ":" ++ toString job.attempts))) ≠ "" := by
    intro heq
    have hdata : pyStripL (job.job_id ++ ":" ++ "started" ++ ":" ++
        toString job.attempts).data = [] := by
      have := congrArg String.data heq
      simpa [pyStrip, pyOrEmpty] using this
    exact pyStripL_ne_nil hcolon (by decide) hdata
  rw [if_neg ?hne2]
  case hne2 =>
    show ¬(pyStrip (pyOrEmpty (some _)) = "")
    simpa using hne
  have hstat : pyLower (pyOrEmpty (some "started")) = "started" := by decide
  rw [hstat]
  simp

/-- C10.  Every rejected callback request — wrong token (401) for any
payload `p1`, missing or empty `event_id` (400) for a payload `p2`
with a blank stripped id, or invalid status (400) for a payload `p3`
with a non-blank id — returns the corresponding error body and leaves
the whole bot state (dedup set, dedup deque and dispatch queue)
unchanged; consequently a later well-formed authorized request `p'`
with the same (not previously seen) `event_id` as `p3` is accepted and
dispatched, with no `duplicate:true` in its response. -/
theorem c10_rejected_requests_leave_state_unchanged (secret : String)
    (st : BotState) (token : Option String) (p1 p2 p3 p' : CallbackPayload)
    (hsame : pyStrip (pyOrEmpty p'.event_id) = pyStrip (pyOrEmpty p3.event_id))
    (hok : pyLower (pyOrEmpty p'.status) = "done" ∨
      pyLower (pyOrEmpty p'.status) = "failed")
    (hfresh : pyStrip (pyOrEmpty p3.event_id) ∉ st.event_ids)
    (hne : pyStrip (pyOrEmpty p3.event_id) ≠ "") :
    (token ≠ some secret →
      handle_callback_request secret st token p1 =
        ((401, ⟨false, some "unauthorized", false⟩), st)) ∧
    (pyStrip (pyOrEmpty p2.event_id) = "" →
      handle_callback_request secret st (some secret) p2 =
        ((400, ⟨false, some "missing event_id", false⟩), st)) ∧
    (pyLower (pyOrEmpty p3.status) ≠ "done" →
      pyLower (pyOrEmpty p3.status) ≠ "failed" →
      handle_callback_request secret st (some secret) p3 =
        ((400, ⟨false, some "invalid status", false⟩), st)) ∧
    ((handle_callback_request secret st (some secret) p').1 =
        (200, ⟨true, none, false⟩) ∧
      (handle_callback_request secret st (some secret) p').2.event_queue =
        st.event_queue ++ [p']) := by
  refine ⟨?_, ?_, ?_, ?_⟩
  · intro htok
    unfold handle_callback_request
    rw [if_pos htok]
  · intro hempty
    unfold handle_callback_request
    rw [if_neg (by simp), if_pos hempty]
  · intro hd hf
    unfold handle_callback_request
    rw [if_neg (by simp), if_neg hne]
    have : (!(pyLower (pyOrEmpty p3.status) = "done" ||
        pyLower (pyOrEmpty p3.status) = "failed")) = true := by
      simp [hd, hf]
    rw [if_pos this]
  · unfold handle_callback_request
    rw [if_neg (by simp), if_neg (by rw [hsame]; exact hne)]
    have hsb : (!(pyLower (pyOrEmpty p'.status) = "done" ||
        pyLower (pyOrEmpty p'.status) = "failed")) = false := by
      rcases hok with h | h <;> simp [h]
    rw [if_neg (by simp [hsb])]
    unfold mark_event_seen
    rw [hsame, if_neg hfresh]
    by_cases hlen : st.event_id_order.length = 5000 <;>
      [skip; simp only [hlen, if_false]] <;>
      [cases horder : st.event_id_order <;> simp_all; simp]

/-- Closed witness for `c10_rejected_requests_leave_state_unchanged`:
from the empty bot state, a wrong-token request, a blank-`event_id`
request, and a bad-status request each produce their rejection with
the state untouched (every antecedent is discharged concretely), and
the later valid request with the bad-status request's event id is
accepted and dispatched. -/
theorem c10_rejected_requests_witness :
    (handle_callback_request "sec" emptyBotState (some "tok")
        ⟨some "E1", some "done", "a"⟩ =
      ((401, ⟨false, some "unauthorized", false⟩), emptyBotState)) ∧
    (handle_callback_request "sec" emptyBotState (some "sec")
        ⟨some " ", some "done", "m"⟩ =
      ((400, ⟨false, some "missing event_id", false⟩), emptyBotState)) ∧
    (handle_callback_request "sec" emptyBotState (some "sec")
        ⟨some "E1", some "bogus", "a"⟩ =
      ((400, ⟨false, some "invalid status", false⟩), emptyBotState)) ∧
    ((handle_callback_request "sec" emptyBotState (some "sec")
        ⟨some "E1", some "done", "b"⟩).1 = (200, ⟨true, none, false⟩) ∧
      (handle_callback_request "sec" emptyBotState (some "sec")
        ⟨some "E1", some "done", "b"⟩).2.event_queue =
        emptyBotState.event_queue ++ [⟨some "E1", some "done", "b"⟩]) := by
  have h := c10_rejected_requests_leave_state_unchanged "sec" emptyBotState
    (some "tok") ⟨some "E1", some "done", "a"⟩ ⟨some " ", some "done", "m"⟩
    ⟨some "E1", some "bogus", "a"⟩ ⟨some "E1", some "done", "b"⟩
    (by decide) (Or.inl (by decide)) (by simp [emptyBotState]) (by decide)
  exact ⟨h.1 (by decide), h.2.1 (by decide), h.2.2.1 (by decide) (by decide),
    h.2.2.2⟩

/-- C9.  For a `job_id` absent from the materialized queue log,
`get_job` returns `none` and the three mark operations return their
null results without appending anything: both the queue file and the
results file are exactly the old ones. -/
theorem c9_absent_job_id_is_noop (cfg : StoreConfig) (st : StoreState)
    (id : String) (result : DownloadResult) (err : String)
    (eid : String) (cberr : Option String) (now₁ now₂ now₃ : String)
    (h : get_job st id = none) :
    mark_done cfg st id result now₁ = (none, st) ∧
    mark_failed_or_retry cfg st id err now₂ = ((none, none), st) ∧
    mark_notification cfg st id eid cberr now₃ = (none, st) := by
  unfold get_job at h
  refine ⟨?_, ?_, ?_⟩
  · unfold mark_done
    rw [h]
  · unfold mark_failed_or_retry
    rw [h]
  · unfold mark_notification
    rw [h]

/-- Closed witness for `c9_absent_job_id_is_noop`: a one-job store and
a missing id. -/
theorem c9_absent_job_id_is_noop_witness :
    let j : JobRecord := ⟨"a", "u", "n", "tiktok", .queued, 0, 3, "t", "t",
      none, none, [], ⟨none, 0, none⟩, none⟩
    let st : StoreState := ⟨[j], []⟩
    mark_done ⟨3, 1000⟩ st "b" "r" "t1" = (none, st) ∧
    mark_failed_or_retry ⟨3, 1000⟩ st "b" "e" "t2" = ((none, none), st) ∧
    mark_notification ⟨3, 1000⟩ st "b" "E" none "t3" = (none, st) :=
  c9_absent_job_id_is_noop ⟨3, 1000⟩ _ "b" "r" "e" "E" none "t1" "t2" "t3"
    (by decide)

/-! ## Compaction preserves the materialized store -/

theorem foldl_upsert_ne_empty {α : Type} (idOf : α → String) :
    ∀ (rows acc : List α), (∀ x ∈ acc, idOf x ≠ "") →
      ∀ x ∈ rows.foldl (fun acc r => if idOf r = "" then acc
        else upsertBy idOf acc r) acc, idOf x ≠ ""
  | [], _, hacc => hacc
  | r :: rs, acc, hacc => by
    simp only [List.foldl_cons]
    split
    · exact foldl_upsert_ne_empty idOf rs acc hacc
    · next hr =>
      refine foldl_upsert_ne_empty idOf rs _ ?_
      intro x hx
      rcases mem_upsertBy hx with hc | hc
      · exact hc ▸ hr
      · exact hacc x hc

theorem latestById_ne_empty {α : Type} {idOf : α → String} {rows : List α}
    {x : α} (h : x ∈ latestById idOf rows) : idOf x ≠ "" :=
  foldl_upsert_ne_empty idOf rows [] (by simp) x h

theorem foldl_upsert_of_nodup {α : Type} (idOf : α → String) :
    ∀ (l acc : List α), ((acc ++ l).map idOf).Nodup →
      (∀ x ∈ l, idOf x ≠ "") →
      l.foldl (fun acc r => if idOf r = "" then acc
        else upsertBy idOf acc r) acc = acc ++ l
  | [], acc, _, _ => by simp
  | r :: rs, acc, hnd, hne => by
    simp only [List.foldl_cons]
    rw [if_neg (hne r (by simp))]
    have hnotin : acc.any (fun x => idOf x = idOf r) = false := by
      rw [List.any_eq_false]
      intro x hx
      simp only [decide_eq_true_eq]
      intro hxr
      rw [List.map_append, List.nodup_append] at hnd
      have h1 : idOf x ∈ acc.map idOf := List.mem_map_of_mem idOf hx
      have h2 : idOf r ∈ (r :: rs).map idOf := by simp
      exact hnd.2.2 h1 (by rw [hxr]; exact h2)
    have hup : upsertBy idOf acc r = acc ++ [r] := by
      unfold upsertBy
      rw [if_neg (by simp [hnotin])]
    rw [hup]
    have := foldl_upsert_of_nodup idOf rs (acc ++ [r])
      (by simpa using hnd) (fun x hx => hne x (List.mem_cons_of_mem r hx))
    simpa using this

theorem latestById_eq_self {α : Type} {idOf : α → String} {l : List α}
    (hnd : (l.map idOf).Nodup) (hne : ∀ x ∈ l, idOf x ≠ "") :
    latestById idOf l = l := by
  unfold latestById
  have := foldl_upsert_of_nodup idOf l [] (by simpa using hnd) hne
  simpa using this

theorem latestById_compact_perm {α : Type} (idOf : α → String)
    (keyOf : α → List Char × List Char × List Char) (rows : List α) :
    (latestById idOf (compact_latest_by_job_id idOf keyOf rows)).Perm
      (latestById idOf rows) := by
  unfold compact_latest_by_job_id
  split
  · exact List.Perm.refl _
  · have hperm : (pySortBy (fun a b => tripleLe (keyOf a) (keyOf b))
        (latestById idOf rows)).Perm (latestById idOf rows) :=
      pySortBy_perm _ _
    have hnd : ((pySortBy (fun a b => tripleLe (keyOf a) (keyOf b))
        (latestById idOf rows)).map idOf).Nodup :=
      ((hperm.map idOf).nodup_iff).mpr (latestById_keys_nodup idOf rows)
    have hne : ∀ x ∈ pySortBy (fun a b => tripleLe (keyOf a) (keyOf b))
        (latestById idOf rows), idOf x ≠ "" :=
      fun x hx => latestById_ne_empty (hperm.subset hx)
    rw [latestById_eq_self hnd hne]
    exact hperm

theorem unique_key_of_nodup {α : Type} {idOf : α → String} {l : List α}
    (h : (l.map idOf).Nodup) {id : String} :
    ∀ x ∈ l, ∀ y ∈ l, idOf x = id → idOf y = id → x = y := by
  intro x hx y hy hxid hyid
  exact List.inj_on_of_nodup_map h hx hy (by rw [hxid, hyid])

/-- C8.  Compacting the queue file (latest record per `job_id`, sorted
by `(created_at, updated_at, job_id)`, empty ids dropped) preserves the
materialized store: `get_job` answers exactly as before for every
`job_id` — in particular for every id present before compaction. -/
theorem c8_compaction_preserves_get_job (queue : List JobRecord)
    (results results' : List ResultRecord) (id : String) :
    get_job ⟨compactQueue queue, results'⟩ id = get_job ⟨queue, results⟩ id := by
  unfold get_job
  simp only
  apply find?_congr_perm
  · exact latestById_compact_perm _ _ queue
  · intro x hx y hy hpx hpy
    exact unique_key_of_nodup (latestById_keys_nodup _ _) x hx y hy
      (of_decide_eq_true hpx) (of_decide_eq_true hpy)

/-! ## Lemmas about the store operations -/

theorem materialize_append_one (q : List JobRecord) (r : JobRecord) :
    materialize (q ++ [r]) =
      if r.job_id = "" then materialize q
      else upsertBy (·.job_id) (materialize q) r := by
  unfold materialize latestById
  rw [List.foldl_append]
  rfl

theorem find?_upsertBy {α : Type} {idOf : α → String} {L : List α}
    (hnd : (L.map idOf).Nodup) (r : α) :
    (upsertBy idOf L r).find? (fun x => idOf x = idOf r) = some r := by
  have hmem : r ∈ upsertBy idOf L r := by
    unfold upsertBy
    split
    · next hin =>
      rw [List.any_eq_true] at hin
      rcases hin with ⟨y, hy, hyr⟩
      simp only [decide_eq_true_eq] at hyr
      exact List.mem_map.mpr ⟨y, hy, by simp [hyr]⟩
    · exact List.mem_append.mpr (Or.inr (by simp))
  apply find?_eq_some_of_unique hmem (by simp)
  intro y hy hpy
  exact unique_key_of_nodup (upsertBy_keys_nodup hnd) y hy r hmem
    (of_decide_eq_true hpy) rfl

theorem get_job_compactQueue_eq (queue : List JobRecord)
    (results results' : List ResultRecord) (id : String) :
    get_job ⟨compactQueue queue, results'⟩ id = get_job ⟨queue, results⟩ id := by
  unfold get_job
  simp only
  apply find?_congr_perm
  · exact latestById_compact_perm _ _ queue
  · intro x hx y hy hpx hpy
    exact unique_key_of_nodup (latestById_keys_nodup _ _) x hx y hy
      (of_decide_eq_true hpx) (of_decide_eq_true hpy)

theorem get_job_maybeCompact (cfg : StoreConfig) (st : StoreState)
    (id : String) : get_job (maybeCompact cfg st) id = get_job st id := by
  unfold maybeCompact
  by_cases h : st.queue.length > storeCompactAfter cfg
  · rw [if_pos h]
    exact get_job_compactQueue_eq st.queue st.results _ id
  · rw [if_neg h]
    rfl

theorem materialize_maybeCompact_perm (cfg : StoreConfig) (st : StoreState) :
    (materialize (maybeCompact cfg st).queue).Perm (materialize st.queue) := by
  unfold maybeCompact
  by_cases h : st.queue.length > storeCompactAfter cfg
  · rw [if_pos h]
    exact latestById_compact_perm _ _ st.queue
  · rw [if_neg h]

theorem claimLe_refl (a : JobRecord) : claimLe a a = true := by
  unfold claimLe
  rw [pairLe_iff]
  exact Or.inr ⟨rfl, lexLe_refl _⟩

theorem claimLe_bool_trans : ∀ (a b c : JobRecord), claimLe a b = true →
    claimLe b c = true → claimLe a c = true :=
  fun _ _ _ h1 h2 => claimLe_trans h1 h2

theorem claimLe_bool_total : ∀ (a b : JobRecord),
    (claimLe a b || claimLe b a) = true := by
  intro a b
  rcases claimLe_total a b with h | h <;> simp [h]

/-- C4.  `claim_next` returns `none` exactly when no materialized job
is queued; otherwise it picks the queued job that is minimal under the
`(created_at, job_id)` order, appends it with `status=running`,
`attempts+1`, a fresh `updated_at`, `claimed_by=worker_id`,
`error=null`, returns that record, and `get_job` then sees it; in
particular a queued job with strictly smaller `created_at` than another
queued job is always claimed first (FIFO). -/
theorem c4_claim_next_fifo (cfg : StoreConfig) (st : StoreState)
    (w now : String) :
    ((claim_next cfg st w now).1 = none ↔
      ∀ j ∈ materialize st.queue, j.status ≠ .queued) ∧
    (∀ r, (claim_next cfg st w now).1 = some r →
      ∃ j ∈ materialize st.queue, j.status = .queued ∧
        (∀ j' ∈ materialize st.queue, j'.status = .queued →
          claimLe j j' = true) ∧
        r = { j with
              status := .running
              attempts := j.attempts + 1
              updated_at := now
              claimed_by := some w
              error := none } ∧
        get_job (claim_next cfg st w now).2 j.job_id = some r ∧
        (∀ A B, A ∈ materialize st.queue → B ∈ materialize st.queue →
          A.status = .queued → B.status = .queued →
          lexLt A.created_at.data B.created_at.data = true →
          r.job_id ≠ B.job_id)) := by
  have hnd := latestById_keys_nodup (JobRecord.job_id) st.queue
  cases hsort : pySortBy claimLe ((materialize st.queue).filter
      (fun j => j.status = Status.queued)) with
  | nil =>
    have hperm := pySortBy_perm claimLe
      ((materialize st.queue).filter (fun j => j.status = Status.queued))
    rw [hsort] at hperm
    have hfilter : (materialize st.queue).filter
        (fun j => j.status = Status.queued) = [] := hperm.symm.eq_nil
    constructor
    · simp only [claim_next, hsort, true_iff]
      intro j hj hq
      have : j ∈ ((materialize st.queue).filter
          (fun j => j.status = Status.queued)) :=
        List.mem_filter.mpr ⟨hj, by simp [hq]⟩
      rw [hfilter] at this
      cases this
    · intro r hr
      simp only [claim_next, hsort] at hr
      simp at hr
  | cons j tl =>
    have hperm := pySortBy_perm claimLe
      ((materialize st.queue).filter (fun j => j.status = Status.queued))
    rw [hsort] at hperm
    have hjq : j ∈ (materialize st.queue).filter
        (fun j => j.status = Status.queued) :=
      hperm.subset (by simp)
    have hjmem : j ∈ materialize st.queue := (List.mem_filter.mp hjq).1
    have hjqueued : j.status = .queued := by
      have := (List.mem_filter.mp hjq).2
      simpa using this
    have hsorted := pySortBy_sorted claimLe_bool_trans claimLe_total
      ((materialize st.queue).filter (fun j => j.status = Status.queued))
    rw [hsort] at hsorted
    have hmin : ∀ j' ∈ materialize st.queue, j'.status = .queued →
        claimLe j j' = true := by
      intro j' hj' hq'
      have hmem' : j' ∈ j :: tl :=
        hperm.symm.subset (List.mem_filter.mpr ⟨hj', by simp [hq']⟩)
      rcases List.mem_cons.mp hmem' with he | htl
      · rw [he]
        exact claimLe_refl j
      · exact (List.pairwise_cons.mp hsorted).1 j' htl
    constructor
    · constructor
      · intro h
        simp only [claim_next, hsort] at h
        simp at h
      · intro hall
        exact absurd hjqueued (hall j hjmem)
    · intro r hr
      simp only [claim_next, hsort] at hr
      have hrr : r = { j with
          status := .running
          attempts := j.attempts + 1
          updated_at := now
          claimed_by := some w
          error := none } := (Option.some.inj hr).symm
      refine ⟨j, hjmem, hjqueued, hmin, hrr, ?_, ?_⟩
      · simp only [claim_next, hsort]
        rw [get_job_maybeCompact]
        unfold get_job
        simp only
        rw [materialize_append_one]
        have hne : ({ j with
            status := .running
            attempts := j.attempts + 1
            updated_at := now
            claimed_by := some w
            error := none } : JobRecord).job_id ≠ "" := by
          simpa using latestById_ne_empty hjmem
        rw [if_neg hne]
        rw [hrr]
        exact @find?_upsertBy JobRecord (fun x => x.job_id)
          (materialize st.queue) hnd { j with
            status := .running
            attempts := j.attempts + 1
            updated_at := now
            claimed_by := some w
            error := none }
      · intro A B hA hB hAq hBq hAB
        intro hid
        have hjB : j.job_id = B.job_id := by
          rw [hrr] at hid
          simpa using hid
        have : j = B := unique_key_of_nodup hnd j hjmem B hB hjB rfl
        subst this
        have hle := hmin A hA hAq
        unfold claimLe at hle
        rw [pairLe_iff] at hle
        rcases hle with h | ⟨he, _⟩
        · have := lexLt_asymm hAB
          simp only at h this
          rw [this] at h
          exact Bool.false_ne_true h
        · simp only at he
          rw [he, lexLt_irrefl] at hAB
          exact Bool.false_ne_true hAB

/-- Closed witness for `c4_claim_next_fifo`: two queued jobs with
distinct `created_at`; the earlier one is claimed. -/
theorem c4_claim_next_fifo_witness :
    let jA : JobRecord := ⟨"a", "u", "n", "tiktok", .queued, 0, 3,
      "2024-01-01", "2024-01-01", none, none, [], ⟨none, 0, none⟩, none⟩
    let jB : JobRecord := ⟨"b", "u", "n", "tiktok", .queued, 0, 3,
      "2024-01-02", "2024-01-02", none, none, [], ⟨none, 0, none⟩, none⟩
    let st : StoreState := ⟨[jA, jB], []⟩
    let r : JobRecord := ⟨"a", "u", "n", "tiktok", .running, 1, 3,
      "2024-01-01", "t9", none, none, [], ⟨none, 0, none⟩, some "w"⟩
    ∃ j ∈ materialize st.queue, j.status = .queued ∧
      (∀ j' ∈ materialize st.queue, j'.status = .queued →
        claimLe j j' = true) ∧
      r = { j with
        status := .running
        attempts := j.attempts + 1
        updated_at := "t9"
        claimed_by := some "w"
        error := none } ∧
      get_job (claim_next ⟨3, 1000⟩ st "w" "t9").2 j.job_id = some r ∧
      (∀ A B, A ∈ materialize st.queue → B ∈ materialize st.queue →
        A.status = .queued → B.status = .queued →
        lexLt A.created_at.data B.created_at.data = true →
        r.job_id ≠ B.job_id) :=
  (c4_claim_next_fifo ⟨3, 1000⟩ _ "w" "t9").2 _ (by decide)

/-! ## The enqueue loop and the reachability invariants -/

theorem mem_materialize_append {q : List JobRecord} {r j : JobRecord}
    (h : j ∈ materialize (q ++ [r])) : j = r ∨ j ∈ materialize q := by
  rw [materialize_append_one] at h
  split at h
  · exact Or.inr h
  · exact mem_upsertBy h

theorem mem_activeByUrl {jobs : List JobRecord} {e : String × JobRecord}
    (h : e ∈ activeByUrl jobs) :
    e.2 ∈ jobs ∧ activeStatus e.2.status = true ∧ e.1 = e.2.normalized_url := by
  unfold activeByUrl at h
  suffices hs : ∀ (rows : List JobRecord) (acc : List (String × JobRecord)),
      (∀ x ∈ acc, x.2 ∈ jobs ∧ activeStatus x.2.status = true ∧
        x.1 = x.2.normalized_url) →
      (∀ x ∈ rows, x ∈ jobs) →
      ∀ x ∈ rows.foldl
        (fun d j =>
          if activeStatus j.status then
            if d.any (fun e => e.1 = j.normalized_url) then
              d.map (fun e => if e.1 = j.normalized_url then (e.1, j) else e)
            else d ++ [(j.normalized_url, j)]
          else d) acc,
        x.2 ∈ jobs ∧ activeStatus x.2.status = true ∧
          x.1 = x.2.normalized_url by
    exact hs jobs [] (by simp) (fun x hx => hx) e h
  intro rows
  induction rows with
  | nil => intro acc hacc _ x hx; exact hacc x hx
  | cons r rs ih =>
    intro acc hacc hrows x hx
    simp only [List.foldl_cons] at hx
    refine ih _ ?_ (fun y hy => hrows y (List.mem_cons_of_mem r hy)) x hx
    intro y hy
    split at hy
    · next hact =>
      split at hy
      · rcases List.mem_map.mp hy with ⟨z, hz, hzy⟩
        by_cases hzu : z.1 = r.normalized_url
        · rw [if_pos hzu] at hzy
          refine hzy ▸ ⟨hrows r (by simp), hact, ?_⟩
          simp [← hzu, (hacc z hz).2.2, hzu]
        · rw [if_neg hzu] at hzy
          exact hzy ▸ hacc z hz
      · rcases List.mem_append.mp hy with hy' | hy'
        · exact hacc y hy'
        · simp only [List.mem_singleton] at hy'
          exact hy' ▸ ⟨hrows r (by simp), hact, rfl⟩
    · exact hacc y hy

theorem dictGet_mem {d : List (String × JobRecord)} {k : String}
    {v : JobRecord} (h : dictGet d k = some v) :
    ∃ e ∈ d, e.1 = k ∧ e.2 = v := by
  unfold dictGet at h
  cases hf : d.find? (fun e => e.1 = k) with
  | none => rw [hf] at h; cases h
  | some e =>
    rw [hf] at h
    have hp := List.find?_some hf
    refine ⟨e, List.mem_of_find?_eq_some hf, of_decide_eq_true hp, ?_⟩
    simpa using h

/-- Generic preservation through the `enqueue_many` loop: any property
of a job record that ignores `subscribers` and `updated_at`, holds of
every freshly created job, holds of the initial materialization and of
the values of the `active_by_url` dict, holds of every job materialized
from the queue the loop returns. -/
theorem enqueueLoop_mem (cfg : StoreConfig) (subRow : Subscriber)
    (now : String) (ids times : Nat → String) (P : JobRecord → Prop)
    (hP : ∀ j subs t, P j → P { j with subscribers := subs, updated_at := t })
    (hnew : ∀ i item, P { job_id := ids i
                          input_url := ExtractedUrl.input_url item
                          normalized_url := ExtractedUrl.normalized_url item
                          platform := (ExtractedUrl.platform item).value
                          status := .queued
                          attempts := 0
                          max_attempts := storeMaxAttempts cfg
                          created_at := now
                          updated_at := now
                          result := none
                          error := none
                          subscribers := [subRow]
                          notification := ⟨none, 0, none⟩
                          claimed_by := none }) :
    ∀ (inputs : List ExtractedUrl) (i : Nat) (queue : List JobRecord)
      (active : List (String × JobRecord)) (outs : List EnqueueRow),
      (∀ j ∈ materialize queue, P j) → (∀ e ∈ active, P e.2) →
      ∀ j ∈ materialize
        (enqueueLoop cfg subRow now ids times inputs i queue active outs).2,
        P j
  | [], _, queue, _, outs, hq, _, j, hj => hq j hj
  | item :: rest, i, queue, active, outs, hq, ha, j, hj => by
    rw [enqueueLoop] at hj
    cases hget : dictGet active item.normalized_url with
    | some existing =>
      rw [hget] at hj
      simp only at hj
      rcases dictGet_mem hget with ⟨e, he, _, hev⟩
      have hex : P existing := hev ▸ ha e he
      by_cases hch : (append_subscriber_if_missing existing.subscribers
          subRow).2 = true
      · simp only [hch, if_true] at hj
        refine enqueueLoop_mem cfg subRow now ids times P hP hnew rest (i + 1)
          _ _ _ ?_ ?_ j hj
        · intro y hy
          rcases mem_materialize_append hy with rfl | hy'
          · exact hP existing _ _ hex
          · exact hq y hy'
        · intro y hy
          rcases List.mem_map.mp hy with ⟨z, hz, hzy⟩
          by_cases hzu : z.1 = item.normalized_url
          · rw [if_pos hzu] at hzy
            exact hzy ▸ hP existing _ _ hex
          · rw [if_neg hzu] at hzy
            exact hzy ▸ ha z hz
      · have hch' : (append_subscriber_if_missing existing.subscribers
            subRow).2 = false := by
          cases hv : (append_subscriber_if_missing existing.subscribers
            subRow).2
          · rfl
          · exact absurd hv hch
        simp only [hch', if_false, Bool.false_eq_true] at hj
        exact enqueueLoop_mem cfg subRow now ids times P hP hnew rest (i + 1)
          _ _ _ hq ha j hj
    | none =>
      rw [hget] at hj
      simp only at hj
      refine enqueueLoop_mem cfg subRow now ids times P hP hnew rest (i + 1)
        _ _ _ ?_ ?_ j hj
      · intro y hy
        rcases mem_materialize_append hy with rfl | hy'
        · exact hnew i item
        · exact hq y hy'
      · intro y hy
        rcases List.mem_append.mp hy with hy' | hy'
        · exact ha y hy'
        · simp only [List.mem_singleton] at hy'
          exact hy' ▸ hnew i item

theorem claim_next_head_mem {st : StoreState} {j : JobRecord}
    {tl : List JobRecord}
    (hsort : pySortBy claimLe ((materialize st.queue).filter
      (fun j => j.status = .queued)) = j :: tl) :
    j ∈ materialize st.queue ∧ j.status = .queued := by
  have hperm := pySortBy_perm claimLe
    ((materialize st.queue).filter (fun j => j.status = .queued))
  rw [hsort] at hperm
  have hjq := hperm.subset (List.mem_cons_self j tl)
  exact ⟨(List.mem_filter.mp hjq).1, by simpa using (List.mem_filter.mp hjq).2⟩

/-- C3.  In every store state reachable from empty logs by the public
operations, every materialized job has `attempts ≤ max_attempts`, and
a `failed` job has `attempts ≥ max_attempts`. -/
theorem c3_attempts_bounded (cfg : StoreConfig) (st : StoreState)
    (h : Reachable cfg st) :
    ∀ j ∈ materialize st.queue,
      j.attempts ≤ j.max_attempts ∧
      (j.status = .failed → j.max_attempts ≤ j.attempts) := by
  suffices hs : ∀ j ∈ materialize st.queue,
      1 ≤ j.max_attempts ∧ j.attempts ≤ j.max_attempts ∧
      (j.status = .queued → j.attempts < j.max_attempts) ∧
      (j.status = .failed → j.max_attempts ≤ j.attempts) by
    intro j hj
    exact ⟨(hs j hj).2.1, (hs j hj).2.2.2⟩
  induction h with
  | init =>
    intro j hj
    simp [materialize, latestById] at hj
  | step hr hstep ih =>
    cases hstep with
    | enqueue inputs sub now ids times hfresh =>
      rename_i s
      intro j hj
      unfold enqueue_many at hj
      by_cases hinp : inputs = []
      · rw [if_pos hinp] at hj
        exact ih j hj
      · rw [if_neg hinp] at hj
        cases hloop : enqueueLoop cfg ⟨sub.chat_id, sub.message_id,
            sub.thread_id, now⟩ now ids times inputs 0 s.queue
            (activeByUrl (materialize s.queue)) [] with
        | mk outs q =>
          simp only [hloop] at hj
          have hj' := (materialize_maybeCompact_perm cfg _).subset hj
          have hq' : q = (enqueueLoop cfg ⟨sub.chat_id, sub.message_id,
              sub.thread_id, now⟩ now ids times inputs 0 s.queue
              (activeByUrl (materialize s.queue)) []).2 := by
            rw [hloop]
          rw [hq'] at hj'
          refine enqueueLoop_mem cfg _ now ids times _ ?_ ?_ inputs 0
            s.queue _ [] ih ?_ j hj'
          · intro x subs t hx
            exact hx
          · intro i item
            refine ⟨?_, ?_, ?_, ?_⟩ <;> simp [storeMaxAttempts]
          · intro e he
            exact ih e.2 (mem_activeByUrl he).1
    | claim w now =>
      rename_i s
      intro j hj
      cases hsort : pySortBy claimLe ((materialize s.queue).filter
          (fun j => j.status = .queued)) with
      | nil =>
        simp only [claim_next, hsort] at hj
        exact ih j hj
      | cons j0 tl =>
        simp only [claim_next, hsort] at hj
        have hj' := (materialize_maybeCompact_perm cfg _).subset hj
        rcases mem_materialize_append hj' with rfl | hj''
        · obtain ⟨hmem, hq0⟩ := claim_next_head_mem hsort
          have hc := ih j0 hmem
          refine ⟨hc.1, hc.2.2.1 hq0, by simp, by simp⟩
        · exact ih j hj''
    | markDone id result now =>
      rename_i s
      intro j hj
      cases hfind : (materialize s.queue).find? (fun j => j.job_id = id) with
      | none =>
        simp only [mark_done, hfind] at hj
        exact ih j hj
      | some current =>
        simp only [mark_done, hfind] at hj
        have hj' := (materialize_maybeCompact_perm cfg _).subset hj
        rcases mem_materialize_append hj' with rfl | hj''
        · have hc := ih current (List.mem_of_find?_eq_some hfind)
          exact ⟨hc.1, hc.2.1, by simp, by simp⟩
        · exact ih j hj''
    | markFail id err now =>
      rename_i s
      intro j hj
      cases hfind : (materialize s.queue).find? (fun j => j.job_id = id) with
      | none =>
        simp only [mark_failed_or_retry, hfind] at hj
        exact ih j hj
      | some current =>
        have hc := ih current (List.mem_of_find?_eq_some hfind)
        have hmax0 : ¬(current.max_attempts = 0) := by omega
        simp only [mark_failed_or_retry, hfind, hmax0, if_false] at hj
        by_cases hlt : current.attempts < current.max_attempts
        · rw [if_pos hlt] at hj
          have hj' := (materialize_maybeCompact_perm cfg _).subset hj
          rcases mem_materialize_append hj' with rfl | hj''
          · exact ⟨hc.1, by simpa using Nat.le_of_lt hlt,
              by simpa using hlt, by simp⟩
          · exact ih j hj''
        · rw [if_neg hlt] at hj
          have hj' := (materialize_maybeCompact_perm cfg _).subset hj
          rcases mem_materialize_append hj' with rfl | hj''
          · exact ⟨hc.1, hc.2.1, by simp, by simpa using Nat.le_of_not_lt hlt⟩
          · exact ih j hj''
    | markNotif id eid cberr now =>
      rename_i s
      intro j hj
      cases hfind : (materialize s.queue).find? (fun j => j.job_id = id) with
      | none =>
        simp only [mark_notification, hfind] at hj
        exact ih j hj
      | some current =>
        simp only [mark_notification, hfind] at hj
        have hj' := (materialize_maybeCompact_perm cfg _).subset hj
        rcases mem_materialize_append hj' with rfl | hj''
        · have hc := ih current (List.mem_of_find?_eq_some hfind)
          exact ⟨hc.1, hc.2.1, fun hq => hc.2.2.1 (by simpa using hq),
            fun hf => hc.2.2.2 (by simpa using hf)⟩
        · exact ih j hj''

/-- Closed witness for `c3_attempts_bounded`: the state after one
enqueue and one claim. -/
theorem c3_attempts_bounded_witness :
    let item : ExtractedUrl := ⟨"https://tiktok.com/a",
      "https://tiktok.com/a", .tiktok⟩
    let st1 := (enqueue_many ⟨2, 1000⟩ ⟨[], []⟩ [item] ⟨1, 10, none⟩ "t1"
      (fun _ => "id0") (fun _ => "m")).2
    let st2 := (claim_next ⟨2, 1000⟩ st1 "w" "t2").2
    ∀ j ∈ materialize st2.queue,
      j.attempts ≤ j.max_attempts ∧
      (j.status = .failed → j.max_attempts ≤ j.attempts) :=
  c3_attempts_bounded ⟨2, 1000⟩ _
    (Reachable.step
      (Reachable.step Reachable.init
        (Step.enqueue _ [⟨"https://tiktok.com/a", "https://tiktok.com/a",
          .tiktok⟩] ⟨1, 10, none⟩ "t1" (fun _ => "id0") (fun _ => "m")
          (by constructor
              · intro i _
                constructor
                · show ("id0" : String) ≠ ""
                  decide
                · simp
              · intro i j hi hj hij
                simp only [List.length_singleton] at hi hj
                omega)))
      (Step.claim _ "w" "t2"))

/-! ## The callback dedup window -/

theorem handle_accept {secret : String} {st : BotState} {p : CallbackPayload}
    (hne : pyStrip (pyOrEmpty p.event_id) ≠ "")
    (hs : pyLower (pyOrEmpty p.status) = "done" ∨
      pyLower (pyOrEmpty p.status) = "failed")
    (hfresh : pyStrip (pyOrEmpty p.event_id) ∉ st.event_ids) :
    handle_callback_request secret st (some secret) p =
      ((200, ⟨true, none, false⟩),
       ⟨(if st.event_id_order.length = 5000 then
           match st.event_id_order with
           | [] => st.event_ids
           | dropped :: _ => st.event_ids.erase dropped
         else st.event_ids) ++ [pyStrip (pyOrEmpty p.event_id)],
        (if st.event_id_order.length = 5000 then
           match st.event_id_order with
           | [] => st.event_id_order
           | _ :: tl => tl
         else st.event_id_order) ++ [pyStrip (pyOrEmpty p.event_id)],
        st.event_queue ++ [p]⟩) := by
  unfold handle_callback_request
  rw [if_neg (by simp), if_neg hne,
    if_neg (by rcases hs with h | h <;> simp [h])]
  unfold mark_event_seen
  rw [if_neg hfresh]
  by_cases hlen : st.event_id_order.length = 5000
  · simp only [hlen, if_true]
    cases st.event_id_order <;> rfl
  · simp only [hlen, if_false]

theorem handle_frame {secret : String} {st : BotState} {r : CallbackRequest}
    (h : freshAccept secret st r = false) :
    (handle_callback_request secret st r.token r.payload).2 = st := by
  unfold handle_callback_request
  by_cases ht : r.token = some secret
  case neg => rw [if_pos ht]
  case pos =>
    rw [if_neg (by simp [ht])]
    by_cases he : pyStrip (pyOrEmpty r.payload.event_id) = ""
    · rw [if_pos he]
    · rw [if_neg he]
      by_cases hsb : (!(pyLower (pyOrEmpty r.payload.status) = "done" ||
          pyLower (pyOrEmpty r.payload.status) = "failed")) = true
      · rw [if_pos hsb]
      · rw [if_neg hsb]
        have hmem : pyStrip (pyOrEmpty r.payload.event_id) ∈
            st.event_ids := by
          by_contra hnm
          have hX : (pyLower (pyOrEmpty r.payload.status) = "done" ||
              pyLower (pyOrEmpty r.payload.status) = "failed" : Bool) = true := by
            cases hv : (pyLower (pyOrEmpty r.payload.status) = "done" ||
                pyLower (pyOrEmpty r.payload.status) = "failed" : Bool)
            · exact absurd (by rw [hv]; rfl) hsb
            · rfl
          have hT : freshAccept secret st r = true := by
            simp [freshAccept, ht, hX, he, hnm]
          rw [h] at hT
          exact Bool.false_ne_true hT
        unfold mark_event_seen
        rw [if_pos hmem]

theorem handle_duplicate {secret : String} {st : BotState}
    {p : CallbackPayload}
    (hne : pyStrip (pyOrEmpty p.event_id) ≠ "")
    (hs : pyLower (pyOrEmpty p.status) = "done" ∨
      pyLower (pyOrEmpty p.status) = "failed")
    (hmem : pyStrip (pyOrEmpty p.event_id) ∈ st.event_ids) :
    handle_callback_request secret st (some secret) p =
      ((200, ⟨true, none, true⟩), st) := by
  unfold handle_callback_request
  rw [if_neg (by simp), if_neg hne,
    if_neg (by rcases hs with h | h <;> simp [h])]
  unfold mark_event_seen
  rw [if_pos hmem]

theorem handle_WF {secret : String} {st : BotState} {r : CallbackRequest}
    (h : BotWF st) :
    BotWF (handle_callback_request secret st r.token r.payload).2 := by
  by_cases hacc : freshAccept secret st r = true
  · have ⟨ht, hne, hs, hfresh⟩ : r.token = some secret ∧
        pyStrip (pyOrEmpty r.payload.event_id) ≠ "" ∧
        (pyLower (pyOrEmpty r.payload.status) = "done" ∨
          pyLower (pyOrEmpty r.payload.status) = "failed") ∧
        pyStrip (pyOrEmpty r.payload.event_id) ∉ st.event_ids := by
      unfold freshAccept at hacc
      simp only [Bool.and_eq_true, decide_eq_true_eq, Bool.or_eq_true,
        Bool.not_eq_true'] at hacc
      obtain ⟨ht, ⟨hne, hs⟩, hcont⟩ := hacc
      exact ⟨ht, hne, by simpa using hs, by simpa using hcont⟩
    rw [ht, handle_accept hne hs hfresh]
    obtain ⟨hnd1, hnd2, hiff, hlen⟩ := h
    have hnotord : pyStrip (pyOrEmpty r.payload.event_id) ∉
        st.event_id_order := fun hc => hfresh ((hiff _).mpr hc)
    by_cases hl : st.event_id_order.length = 5000
    · cases hord : st.event_id_order with
      | nil => rw [hord] at hl; simp at hl
      | cons d0 tl =>
        rw [hord] at hnd1 hnotord hl hiff
        have hd0tl : d0 ∉ tl := (List.nodup_cons.mp hnd1).1
        refine ⟨?_, ?_, ?_, ?_⟩ <;> simp only [hl, reduceIte]
        · rw [List.nodup_append]
          exact ⟨(List.nodup_cons.mp hnd1).2, List.nodup_singleton _,
            fun x hx => by
              simp only [List.mem_singleton]
              intro hxe
              exact hnotord (hxe ▸ List.mem_cons_of_mem d0 hx)⟩
        · rw [List.nodup_append]
          refine ⟨hnd2.erase d0, List.nodup_singleton _, fun x hx => by
            simp only [List.mem_singleton]
            intro hxe
            exact hfresh (hxe ▸ List.mem_of_mem_erase hx)⟩
        · intro x
          simp only [List.mem_append, List.mem_singleton]
          rw [hnd2.mem_erase_iff]
          constructor
          · rintro (⟨hxd, hxm⟩ | rfl)
            · rcases List.mem_cons.mp ((hiff x).mp hxm) with rfl | hxtl
              · exact absurd rfl hxd
              · exact Or.inl hxtl
            · exact Or.inr rfl
          · rintro (hxtl | rfl)
            · exact Or.inl ⟨fun hxd => hd0tl (hxd ▸ hxtl),
                (hiff x).mpr (List.mem_cons_of_mem d0 hxtl)⟩
            · exact Or.inr rfl
        · have : tl.length + 1 = 5000 := by simpa using hl
          simp only [List.length_append, List.length_singleton]
          omega
    · refine ⟨?_, ?_, ?_, ?_⟩ <;>
        simp only [if_neg hl]
      · rw [List.nodup_append]
        exact ⟨hnd1, List.nodup_singleton _, fun x hx => by
          simp only [List.mem_singleton]
          intro hxe
          exact hnotord (hxe ▸ hx)⟩
      · rw [List.nodup_append]
        exact ⟨hnd2, List.nodup_singleton _, fun x hx => by
          simp only [List.mem_singleton]
          intro hxe
          exact hfresh (hxe ▸ hx)⟩
      · intro x
        simp only [List.mem_append, List.mem_singleton]
        exact or_congr_left (hiff x)
      · simp only [List.length_append, List.length_singleton]
        omega
  · have hne := Bool.eq_false_iff.mpr hacc
    rw [handle_frame hne]
    exact h

theorem window_keeps_eid (secret eid : String) :
    ∀ (rs : List CallbackRequest) (st : BotState) (d : Nat),
      BotWF st →
      (∃ a b, st.event_id_order = a ++ eid :: b ∧ eid ∉ a ∧ eid ∉ b ∧
        b.length ≤ d) →
      d + countFresh secret st rs ≤ 4999 →
      BotWF (processRequests secret st rs) ∧
      eid ∈ (processRequests secret st rs).event_id_order
  | [], st, d, hWF, ⟨a, b, hord, _, _, _⟩, _ => by
    refine ⟨hWF, ?_⟩
    rw [processRequests, hord]
    simp
  | r :: rs, st, d, hWF, ⟨a, b, hord, ha, hb, hblen⟩, hbound => by
    have hWF' : BotWF (handle_callback_request secret st r.token r.payload).2 :=
      handle_WF hWF
    by_cases hacc : freshAccept secret st r = true
    · have ⟨ht, hne, hs, hfresh⟩ : r.token = some secret ∧
          pyStrip (pyOrEmpty r.payload.event_id) ≠ "" ∧
          (pyLower (pyOrEmpty r.payload.status) = "done" ∨
            pyLower (pyOrEmpty r.payload.status) = "failed") ∧
          pyStrip (pyOrEmpty r.payload.event_id) ∉ st.event_ids := by
        unfold freshAccept at hacc
        simp only [Bool.and_eq_true, decide_eq_true_eq, Bool.or_eq_true,
          Bool.not_eq_true'] at hacc
        obtain ⟨ht, ⟨hne, hs⟩, hcont⟩ := hacc
        exact ⟨ht, hne, by simpa using hs, by simpa using hcont⟩
      have heidmem : eid ∈ st.event_ids :=
        (hWF.2.2.1 eid).mpr (hord ▸ List.mem_append.mpr
          (Or.inr (List.mem_cons_self eid b)))
      have hrneid : pyStrip (pyOrEmpty r.payload.event_id) ≠ eid :=
        fun hc => hfresh (hc ▸ heidmem)
      have hbound' : d + 1 + countFresh secret
          (handle_callback_request secret st r.token r.payload).2 rs ≤ 4999 := by
        rw [countFresh, hacc] at hbound
        simp only [if_true] at hbound
        omega
      rw [processRequests]
      refine window_keeps_eid secret eid rs _ (d + 1) hWF' ?_ hbound'
      rw [ht, handle_accept hne hs hfresh]
      by_cases hl : st.event_id_order.length = 5000
      · cases hord2 : st.event_id_order with
        | nil =>
          rw [hord2] at hl
          simp at hl
        | cons d0 tl =>
          rw [hord2] at hord
          rw [hord2] at hl
          cases a with
          | nil =>
            exfalso
            simp only [List.nil_append] at hord
            have htl : tl.length = 4999 := by simpa using hl
            have hbt : b.length = 4999 := by
              rw [← (List.cons.injEq .. |>.mp hord).2]
              exact htl
            omega
          | cons a0 a' =>
            have hai := List.cons.injEq .. |>.mp (by simpa using hord)
            refine ⟨a', b ++ [pyStrip (pyOrEmpty r.payload.event_id)], ?_, ?_, ?_, ?_⟩
            · simp only [hl, reduceIte]
              rw [hai.2]
              simp
            · exact fun hc => ha (List.mem_cons_of_mem a0 hc)
            · intro hc
              rcases List.mem_append.mp hc with hc' | hc'
              · exact hb hc'
              · simp only [List.mem_singleton] at hc'
                exact hrneid hc'.symm
            · simp only [List.length_append, List.length_singleton]
              omega
      · refine ⟨a, b ++ [pyStrip (pyOrEmpty r.payload.event_id)], ?_, ha, ?_, ?_⟩
        · simp only [if_neg hl]
          rw [hord]
          simp
        · intro hc
          rcases List.mem_append.mp hc with hc' | hc'
          · exact hb hc'
          · simp only [List.mem_singleton] at hc'
            exact hrneid hc'.symm
        · simp only [List.length_append, List.length_singleton]
          omega
    · have hne := Bool.eq_false_iff.mpr hacc
      have hbound' : d + countFresh secret
          (handle_callback_request secret st r.token r.payload).2 rs ≤ 4999 := by
        rw [countFresh, hne] at hbound
        simpa using hbound
      rw [processRequests]
      refine window_keeps_eid secret eid rs _ d hWF' ?_ hbound'
      rw [handle_frame hne]
      exact ⟨a, b, hord, ha, hb, hblen⟩

/-- C6.  Idempotency of the callback endpoint: a first authorized,
valid request with a fresh `event_id` is answered `200 {ok:true}` and
appends exactly its payload to the dispatch queue; after any further
requests among which fewer than 5000 fresh event ids are accepted, a
second authorized valid request with the same `event_id` is answered
`200 {ok:true, duplicate:true}` and changes nothing — no second
dispatch. -/
theorem c6_callback_idempotency (secret : String) (st0 : BotState)
    (p p2 : CallbackPayload) (mids : List CallbackRequest)
    (hWF : BotWF st0)
    (heid : pyStrip (pyOrEmpty p.event_id) ≠ "")
    (hst : pyLower (pyOrEmpty p.status) = "done" ∨
      pyLower (pyOrEmpty p.status) = "failed")
    (hfresh : pyStrip (pyOrEmpty p.event_id) ∉ st0.event_ids)
    (hsame : pyStrip (pyOrEmpty p2.event_id) = pyStrip (pyOrEmpty p.event_id))
    (hst2 : pyLower (pyOrEmpty p2.status) = "done" ∨
      pyLower (pyOrEmpty p2.status) = "failed")
    (hbound : countFresh secret
      (handle_callback_request secret st0 (some secret) p).2 mids ≤ 4999) :
    (handle_callback_request secret st0 (some secret) p).1 =
      (200, ⟨true, none, false⟩) ∧
    (handle_callback_request secret st0 (some secret) p).2.event_queue =
      st0.event_queue ++ [p] ∧
    (handle_callback_request secret
        (processRequests secret
          (handle_callback_request secret st0 (some secret) p).2 mids)
        (some secret) p2).1 = (200, ⟨true, none, true⟩) ∧
    (handle_callback_request secret
        (processRequests secret
          (handle_callback_request secret st0 (some secret) p).2 mids)
        (some secret) p2).2 =
      processRequests secret
        (handle_callback_request secret st0 (some secret) p).2 mids := by
  have hacc := @handle_accept secret st0 p heid hst hfresh
  have hWF1 : BotWF (handle_callback_request secret st0 (some secret) p).2 := by
    have := @handle_WF secret st0 ⟨some secret, p⟩ hWF
    exact this
  have hsplit : ∃ a b, (handle_callback_request secret st0
      (some secret) p).2.event_id_order =
      a ++ pyStrip (pyOrEmpty p.event_id) :: b ∧
      pyStrip (pyOrEmpty p.event_id) ∉ a ∧
      pyStrip (pyOrEmpty p.event_id) ∉ b ∧ b.length ≤ 0 := by
    rw [hacc]
    refine ⟨(if st0.event_id_order.length = 5000 then
        match st0.event_id_order with
        | [] => st0.event_id_order
        | _ :: tl => tl
      else st0.event_id_order), [], by simp, ?_, by simp, by simp⟩
    have hnotord : pyStrip (pyOrEmpty p.event_id) ∉ st0.event_id_order :=
      fun hc => hfresh ((hWF.2.2.1 _).mpr hc)
    by_cases hl : st0.event_id_order.length = 5000
    · simp only [hl, reduceIte]
      cases hcase : st0.event_id_order with
      | nil => simp
      | cons d0 tl =>
        rw [hcase] at hnotord
        intro hc
        exact hnotord (List.mem_cons_of_mem d0 (by simpa using hc))
    · simp only [if_neg hl]
      exact hnotord
  obtain ⟨hWF2, hmem2⟩ := window_keeps_eid secret
    (pyStrip (pyOrEmpty p.event_id)) mids _ 0 hWF1 hsplit (by simpa using hbound)
  have hmemids : pyStrip (pyOrEmpty p2.event_id) ∈
      (processRequests secret
        (handle_callback_request secret st0 (some secret) p).2
        mids).event_ids := by
    rw [hsame]
    exact (hWF2.2.2.1 _).mpr hmem2
  have hne2 : pyStrip (pyOrEmpty p2.event_id) ≠ "" := by
    rw [hsame]
    exact heid
  have hdup := @handle_duplicate secret _ p2 hne2 hst2 hmemids
  refine ⟨by rw [hacc], by rw [hacc], by rw [hdup], by rw [hdup]⟩

/-- Closed witness for `c6_callback_idempotency`: the empty bot state,
the same `E1`/`done` payload twice, nothing in between. -/
theorem c6_callback_idempotency_witness :
    (handle_callback_request "sec" emptyBotState (some "sec")
        ⟨some "E1", some "done", "x"⟩).1 = (200, ⟨true, none, false⟩) ∧
    (handle_callback_request "sec" emptyBotState (some "sec")
        ⟨some "E1", some "done", "x"⟩).2.event_queue =
      emptyBotState.event_queue ++ [⟨some "E1", some "done", "x"⟩] ∧
    (handle_callback_request "sec"
        (processRequests "sec"
          (handle_callback_request "sec" emptyBotState (some "sec")
            ⟨some "E1", some "done", "x"⟩).2 [])
        (some "sec") ⟨some "E1", some "done", "x"⟩).1 =
      (200, ⟨true, none, true⟩) ∧
    (handle_callback_request "sec"
        (processRequests "sec"
          (handle_callback_request "sec" emptyBotState (some "sec")
            ⟨some "E1", some "done", "x"⟩).2 [])
        (some "sec") ⟨some "E1", some "done", "x"⟩).2 =
      processRequests "sec"
        (handle_callback_request "sec" emptyBotState (some "sec")
          ⟨some "E1", some "done", "x"⟩).2 [] :=
  c6_callback_idempotency "sec" emptyBotState ⟨some "E1", some "done", "x"⟩
    ⟨some "E1", some "done", "x"⟩ []
    (by refine ⟨by simp [emptyBotState], by simp [emptyBotState],
          fun x => by simp [emptyBotState], by simp [emptyBotState]⟩)
    (by decide) (Or.inl (by decide)) (by simp [emptyBotState]) (by decide)
    (Or.inl (by decide)) (by decide)

/-! ## Characterizing `classify_url` -/

theorem char_toNat_ofNat (n : Nat) (h : n.isValidChar) :
    (Char.ofNat n).toNat = n := by
  unfold Char.toNat Char.ofNat
  rw [dif_pos h]
  rfl

theorem pyLowerChar_eq_slash {c : Char} (h : pyLowerChar c = '/') :
    c = '/' := by
  unfold pyLowerChar at h
  split at h
  · next hc =>
    exfalso
    simp only [Bool.and_eq_true, decide_eq_true_eq] at hc
    have hge : 65 ≤ c.toNat := hc.1
    have hle : c.toNat ≤ 90 := hc.2
    have hv : Nat.isValidChar (c.toNat + 32) := Or.inl (by omega)
    have h2 := congrArg Char.toNat h
    rw [char_toNat_ofNat _ hv] at h2
    have : ('/' : Char).toNat = 47 := by decide
    omega
  · exact h

theorem drop_takeWhile_length (p : Char → Bool) :
    ∀ l : List Char, l.drop (l.takeWhile p).length = l.dropWhile p := by
  intro l
  induction l with
  | nil => rfl
  | cons c t ih =>
    by_cases hc : p c
    · simp only [List.takeWhile_cons, List.dropWhile_cons, hc, if_pos,
        List.length_cons, List.drop_succ_cons]
      exact ih
    · simp only [List.takeWhile_cons, List.dropWhile_cons]
      rw [if_neg (by simpa using hc), if_neg (by simpa using hc)]
      rfl

theorem lowerL_cons_slash {l r : List Char} (h : lowerL l = '/' :: r) :
    ∃ l2, l = '/' :: l2 ∧ lowerL l2 = r := by
  cases l with
  | nil => exact absurd h (by simp [lowerL])
  | cons c t =>
    simp only [lowerL, List.map_cons, List.cons.injEq] at h
    obtain ⟨hc, ht⟩ := h
    exact ⟨t, by rw [pyLowerChar_eq_slash hc], ht⟩

theorem lowerL_append_slash {l r : List Char} (h : lowerL l = r ++ ['/']) :
    ∃ l2, l = l2 ++ ['/'] ∧ lowerL l2 = r := by
  have hrev : lowerL l.reverse = '/' :: r.reverse := by
    have := congrArg List.reverse h
    simp only [List.reverse_append, List.reverse_cons, List.reverse_nil,
      List.nil_append, List.singleton_append] at this
    simpa [lowerL, List.map_reverse] using this
  obtain ⟨m, hm, hlm⟩ := lowerL_cons_slash hrev
  refine ⟨m.reverse, ?_, ?_⟩
  · have := congrArg List.reverse hm
    simpa using this
  · have := congrArg List.reverse hlm
    simpa [lowerL, List.map_reverse] using this

theorem takeWhile_append_stop {seg M : List Char} (hseg : '/' ∉ seg) :
    (seg ++ '/' :: M).takeWhile (· ≠ '/') = seg := by
  induction seg with
  | nil => simp [List.takeWhile_cons]
  | cons c s ih =>
    have hc : c ≠ '/' := fun he => hseg (he ▸ List.mem_cons_self c s)
    have hs : '/' ∉ s := fun hm => hseg (List.mem_cons_of_mem c hm)
    simp only [List.cons_append, List.takeWhile_cons]
    rw [if_pos (by simpa using hc), ih hs]

theorem matchXStatus_not_slash {c : Char} {t : List Char} (hc : c ≠ '/') :
    matchXStatus (c :: t) = false := by
  rw [matchXStatus.eq_def]
  split
  · next heq =>
    exact absurd (List.head_eq_of_cons_eq heq.symm).symm hc
  · rfl

theorem matchXStatus_iff (path : List Char) :
    matchXStatus path = true ↔
      ∃ seg mid d rest,
        path = '/' :: (seg ++ '/' :: (mid ++ '/' :: d :: rest)) ∧
        seg ≠ [] ∧ '/' ∉ seg ∧ lowerL mid = "status".data ∧
        isAsciiDigit d = true := by
  constructor
  · intro h
    cases path with
    | nil => exact absurd h (by decide)
    | cons c t =>
      by_cases hc : c = '/'
      · subst hc
        simp only [matchXStatus] at h
        by_cases hseg : t.takeWhile (· ≠ '/') = []
        · rw [if_pos hseg] at h
          exact absurd h (by simp)
        · rw [if_neg hseg] at h
          set after := t.drop (t.takeWhile (· ≠ '/')).length with hafter
          by_cases hst : lowerL (after.take 8) = "/status/".data
          · rw [if_pos hst] at h
            have hdec : t = t.takeWhile (· ≠ '/') ++ after := by
              rw [hafter, drop_takeWhile_length]
              exact (List.takeWhile_append_dropWhile _ _).symm
            have hsplit : "/status/".data =
                '/' :: ("status".data ++ ['/']) := by decide
            rw [hsplit] at hst
            obtain ⟨a1, ha1, hla1⟩ := lowerL_cons_slash hst
            obtain ⟨mid, hmid, hlmid⟩ := lowerL_append_slash hla1
            cases hdrop : after.drop 8 with
            | nil => rw [hdrop] at h; exact absurd h (by simp)
            | cons d r8 =>
              rw [hdrop] at h
              have htk : after.take 8 = '/' :: (mid ++ ['/']) := by
                rw [ha1, hmid]
              have hafter8 : after = '/' :: (mid ++ '/' :: d :: r8) := by
                conv_lhs => rw [← List.take_append_drop 8 after]
                rw [htk, hdrop]
                simp
              refine ⟨t.takeWhile (· ≠ '/'), mid, d, r8, ?_, hseg, ?_,
                hlmid, h⟩
              · conv_lhs => rw [hdec, hafter8]
              · intro hmem
                have := List.mem_takeWhile_imp hmem
                simp at this
          · rw [if_neg hst] at h
            exact absurd h (by simp)
      · rw [matchXStatus_not_slash hc] at h
        exact absurd h (by simp)
  · rintro ⟨seg, mid, d, rest, hpath, hne, hnot, hlmid, hd⟩
    subst hpath
    have hlenm : mid.length = 6 := by
      have := congrArg List.length hlmid
      simp only [lowerL, List.length_map] at this
      simpa using this
    simp only [matchXStatus]
    rw [takeWhile_append_stop hnot, if_neg hne, List.drop_left]
    have hA : ('/' :: (mid ++ '/' :: d :: rest) : List Char) =
        ('/' :: (mid ++ ['/'])) ++ (d :: rest) := by simp
    have hAlen : (('/' :: (mid ++ ['/'])) : List Char).length = 8 := by
      simp [hlenm]
    rw [hA, List.take_left' hAlen, List.drop_left' hAlen]
    have hlow : lowerL ('/' :: (mid ++ ['/'])) = "/status/".data := by
      simp only [lowerL, List.map_cons, List.map_append]
      rw [show List.map pyLowerChar mid = "status".data from hlmid]
      decide
    rw [if_pos hlow]
    exact hd

theorem subList_iff (needle : List Char) :
    ∀ hay : List Char,
      (subList needle hay = true ↔ ∃ u v, u ++ needle ++ v = hay) := by
  intro hay
  induction hay with
  | nil =>
    simp only [subList, List.isEmpty_iff]
    constructor
    · intro h
      exact ⟨[], [], by simp [h]⟩
    · rintro ⟨u, v, huv⟩
      rcases List.append_eq_nil.mp huv with ⟨h1, h2⟩
      exact (List.append_eq_nil.mp h1).2
  | cons c rest ih =>
    simp only [subList, Bool.or_eq_true]
    constructor
    · rintro (h | h)
      · obtain ⟨v, hv⟩ := List.isPrefixOf_iff_prefix.mp h
        exact ⟨[], v, by simpa using hv⟩
      · obtain ⟨u, v, huv⟩ := ih.mp h
        exact ⟨c :: u, v, by simp [← huv]⟩
    · rintro ⟨u, v, huv⟩
      cases u with
      | nil =>
        left
        exact List.isPrefixOf_iff_prefix.mpr ⟨v, by simpa using huv⟩
      | cons c2 u2 =>
        right
        refine ih.mpr ⟨u2, v, ?_⟩
        have := List.tail_eq_of_cons_eq huv
        simpa using this

theorem suffix_of_suffix {A B t1 t2 : List Char}
    (h : t1 ++ A = t2 ++ B) (hlen : A.length ≤ B.length) :
    A = B.drop (B.length - A.length) := by
  have hl := congrArg List.length h
  simp only [List.length_append] at hl
  have hk : t1.length = t2.length + (B.length - A.length) := by omega
  calc A = (t1 ++ A).drop t1.length := (List.drop_left _ _).symm
    _ = (t2 ++ B).drop t1.length := by rw [h]
    _ = ((t2 ++ B).drop t2.length).drop (B.length - A.length) := by
        rw [List.drop_drop, ← hk]
    _ = B.drop (B.length - A.length) := by rw [List.drop_left]

theorem tiktok_suffix_ne_instagram {t1 t2 h1 h2 : List Char}
    (e1 : t1 ++ "tiktok.com".data = h1)
    (e2 : t2 ++ "instagram.com".data = h2) (he : h1 = h2) : False := by
  subst he
  rw [← e2] at e1
  have := suffix_of_suffix e1 (by decide)
  revert this
  decide

theorem tiktok_suffix_ne_xhost {t1 h1 : List Char}
    (e1 : t1 ++ "tiktok.com".data = h1)
    (hx : h1 = "x.com".data ∨ h1 = "twitter.com".data ∨
          h1 = "mobile.twitter.com".data) : False := by
  rcases hx with hx | hx | hx
  · rw [hx] at e1
    have := congrArg List.length e1
    simp at this
  · rw [hx] at e1
    have := @suffix_of_suffix _ _ _ [] (by simpa using e1) (by decide)
    revert this
    decide
  · rw [hx] at e1
    have := @suffix_of_suffix _ _ _ [] (by simpa using e1) (by decide)
    revert this
    decide

theorem instagram_suffix_ne_xhost {t1 h1 : List Char}
    (e1 : t1 ++ "instagram.com".data = h1)
    (hx : h1 = "x.com".data ∨ h1 = "twitter.com".data ∨
          h1 = "mobile.twitter.com".data) : False := by
  rcases hx with hx | hx | hx
  · rw [hx] at e1
    have := congrArg List.length e1
    simp at this
  · rw [hx] at e1
    have := congrArg List.length e1
    simp at this
  · rw [hx] at e1
    have := @suffix_of_suffix _ _ _ [] (by simpa using e1) (by decide)
    revert this
    decide

theorem classify_tiktok_iff (url : String) :
    (∃ e, classify_url url = some e ∧ e.platform = Platform.tiktok) ↔
      specTiktokCond url := by
  constructor
  · rintro ⟨e, he, hp⟩
    cases hparse : pyUrlparse (String.mk (cleanCandidateL url.data)) with
    | none => exact absurd he (by simp [classify_url, hparse])
    | some pr =>
      simp only [classify_url, hparse] at he
      rw [show (if pr.path = [] then ['/'] else pr.path) = specPath pr
        from rfl] at he
      split at he
      · exact absurd he (by simp)
      · next h1 =>
        have hsch : specSchemeOk pr := by
          simp at h1
          exact or_iff_not_imp_left.mpr h1
        split at he
        · next h2 =>
          refine ⟨pr, hparse, hsch, ?_⟩
          exact List.isSuffixOf_iff_suffix.mp h2
        · next h2 =>
          split at he
          · simp at he
            rw [← he] at hp
            exact absurd hp (by simp)
          · split at he
            · simp at he
              rw [← he] at hp
              exact absurd hp (by simp)
            · exact absurd he (by simp)
  · rintro ⟨pr, hparse, hsch, t, hsuf⟩
    have ht : is_tiktok (normalizeHostL pr.netloc) = true := by
      simp only [is_tiktok]
      exact List.isSuffixOf_iff_suffix.mpr ⟨t, hsuf⟩
    have hb : (decide (lowerL pr.scheme = "http".data) ||
        decide (lowerL pr.scheme = "https".data)) = true := by
      rcases hsch with h | h <;> simp [h]
    refine ⟨⟨String.mk (cleanCandidateL url.data),
      String.mk (normalizeFromParts pr), Platform.tiktok⟩, ?_, rfl⟩
    simp only [classify_url, hparse, ht]
    simp [hb]

theorem is_instagram_iff (host path : List Char) :
    is_instagram host path = true ↔
      (∃ t, t ++ "instagram.com".data = host) ∧
      (∃ u v, u ++ "/reel/".data ++ v = lowerL path ∨
              u ++ "/p/".data ++ v = lowerL path ∨
              u ++ "/tv/".data ++ v = lowerL path) := by
  simp only [is_instagram, Bool.and_eq_true, Bool.or_eq_true]
  constructor
  · rintro ⟨h1, h2⟩
    refine ⟨List.isSuffixOf_iff_suffix.mp h1, ?_⟩
    rcases h2 with (h | h) | h
    · obtain ⟨u, v, huv⟩ := (subList_iff _ _).mp h
      exact ⟨u, v, Or.inl huv⟩
    · obtain ⟨u, v, huv⟩ := (subList_iff _ _).mp h
      exact ⟨u, v, Or.inr (Or.inl huv)⟩
    · obtain ⟨u, v, huv⟩ := (subList_iff _ _).mp h
      exact ⟨u, v, Or.inr (Or.inr huv)⟩
  · rintro ⟨h1, u, v, h⟩
    refine ⟨List.isSuffixOf_iff_suffix.mpr h1, ?_⟩
    rcases h with h | h | h
    · exact Or.inl (Or.inl ((subList_iff _ _).mpr ⟨u, v, h⟩))
    · exact Or.inl (Or.inr ((subList_iff _ _).mpr ⟨u, v, h⟩))
    · exact Or.inr ((subList_iff _ _).mpr ⟨u, v, h⟩)

theorem is_x_status_iff (host path : List Char) :
    is_x_status host path = true ↔
      (host = "x.com".data ∨ host = "twitter.com".data ∨
       host = "mobile.twitter.com".data) ∧
      (∃ seg mid d rest,
        path = '/' :: (seg ++ '/' :: (mid ++ '/' :: d :: rest)) ∧
        seg ≠ [] ∧ '/' ∉ seg ∧ lowerL mid = "status".data ∧
        isAsciiDigit d = true) := by
  simp only [is_x_status, Bool.and_eq_true, Bool.or_eq_true,
    decide_eq_true_eq]
  rw [matchXStatus_iff]
  constructor <;> rintro ⟨h1, h2⟩ <;> exact ⟨by tauto, h2⟩

theorem classify_instagram_iff (url : String) :
    (∃ e, classify_url url = some e ∧ e.platform = Platform.instagram) ↔
      specInstagramCond url := by
  constructor
  · rintro ⟨e, he, hp⟩
    cases hparse : pyUrlparse (String.mk (cleanCandidateL url.data)) with
    | none => exact absurd he (by simp [classify_url, hparse])
    | some pr =>
      simp only [classify_url, hparse] at he
      rw [show (if pr.path = [] then ['/'] else pr.path) = specPath pr
        from rfl] at he
      split at he
      · exact absurd he (by simp)
      · next h1 =>
        have hsch : specSchemeOk pr := by
          simp at h1
          exact or_iff_not_imp_left.mpr h1
        split at he
        · simp at he
          rw [← he] at hp
          exact absurd hp (by simp)
        · split at he
          · next h2 =>
            obtain ⟨hh, hpth⟩ := (is_instagram_iff _ _).mp h2
            exact ⟨pr, hparse, hsch, hh, hpth⟩
          · split at he
            · simp at he
              rw [← he] at hp
              exact absurd hp (by simp)
            · exact absurd he (by simp)
  · rintro ⟨pr, hparse, hsch, ⟨t, hsuf⟩, u, v, hpath⟩
    have hi : is_instagram (normalizeHostL pr.netloc) (specPath pr) = true :=
      (is_instagram_iff _ _).mpr ⟨⟨t, hsuf⟩, u, v, hpath⟩
    have ht : is_tiktok (normalizeHostL pr.netloc) = false := by
      cases hc : is_tiktok (normalizeHostL pr.netloc) with
      | false => rfl
      | true =>
        have hsuf2 : "tiktok.com".data <:+ normalizeHostL pr.netloc := by
          simpa [is_tiktok] using hc
        obtain ⟨t2, ht2⟩ := hsuf2
        exact (tiktok_suffix_ne_instagram ht2 hsuf rfl).elim
    have hb : (decide (lowerL pr.scheme = "http".data) ||
        decide (lowerL pr.scheme = "https".data)) = true := by
      rcases hsch with h | h <;> simp [h]
    refine ⟨⟨String.mk (cleanCandidateL url.data),
      String.mk (normalizeFromParts pr), Platform.instagram⟩, ?_, rfl⟩
    simp only [classify_url, hparse]
    rw [show (if pr.path = [] then ['/'] else pr.path) = specPath pr
      from rfl]
    simp [hb, ht, hi]

theorem classify_x_iff (url : String) :
    (∃ e, classify_url url = some e ∧ e.platform = Platform.x) ↔
      specXCond url := by
  constructor
  · rintro ⟨e, he, hp⟩
    cases hparse : pyUrlparse (String.mk (cleanCandidateL url.data)) with
    | none => exact absurd he (by simp [classify_url, hparse])
    | some pr =>
      simp only [classify_url, hparse] at he
      rw [show (if pr.path = [] then ['/'] else pr.path) = specPath pr
        from rfl] at he
      split at he
      · exact absurd he (by simp)
      · next h1 =>
        have hsch : specSchemeOk pr := by
          simp at h1
          exact or_iff_not_imp_left.mpr h1
        split at he
        · simp at he
          rw [← he] at hp
          exact absurd hp (by simp)
        · split at he
          · simp at he
            rw [← he] at hp
            exact absurd hp (by simp)
          · split at he
            · next h2 =>
              obtain ⟨hh, hpth⟩ := (is_x_status_iff _ _).mp h2
              exact ⟨pr, hparse, hsch, hh, hpth⟩
            · exact absurd he (by simp)
  · rintro ⟨pr, hparse, hsch, hhost, hdecomp⟩
    have hx : is_x_status (normalizeHostL pr.netloc) (specPath pr) = true :=
      (is_x_status_iff _ _).mpr ⟨hhost, hdecomp⟩
    have ht : is_tiktok (normalizeHostL pr.netloc) = false := by
      cases hc : is_tiktok (normalizeHostL pr.netloc) with
      | false => rfl
      | true =>
        have hsuf2 : "tiktok.com".data <:+ normalizeHostL pr.netloc := by
          simpa [is_tiktok] using hc
        obtain ⟨t2, ht2⟩ := hsuf2
        exact (tiktok_suffix_ne_xhost ht2 hhost).elim
    have hi : is_instagram (normalizeHostL pr.netloc) (specPath pr) = false := by
      cases hc : is_instagram (normalizeHostL pr.netloc) (specPath pr) with
      | false => rfl
      | true =>
        obtain ⟨⟨t2, ht2⟩, _⟩ := (is_instagram_iff _ _).mp hc
        exact (instagram_suffix_ne_xhost ht2 hhost).elim
    have hb : (decide (lowerL pr.scheme = "http".data) ||
        decide (lowerL pr.scheme = "https".data)) = true := by
      rcases hsch with h | h <;> simp [h]
    refine ⟨⟨String.mk (cleanCandidateL url.data),
      String.mk (normalizeFromParts pr), Platform.x⟩, ?_, rfl⟩
    simp only [classify_url, hparse]
    rw [show (if pr.path = [] then ['/'] else pr.path) = specPath pr
      from rfl]
    simp [hb, ht, hi, hx]

theorem classify_none_iff (url : String) :
    classify_url url = none ↔
      ¬(specTiktokCond url ∨ specInstagramCond url ∨ specXCond url) := by
  constructor
  · intro h hcond
    rcases hcond with hc | hc | hc
    · obtain ⟨e, he, _⟩ := (classify_tiktok_iff url).mpr hc
      rw [h] at he
      exact absurd he (by simp)
    · obtain ⟨e, he, _⟩ := (classify_instagram_iff url).mpr hc
      rw [h] at he
      exact absurd he (by simp)
    · obtain ⟨e, he, _⟩ := (classify_x_iff url).mpr hc
      rw [h] at he
      exact absurd he (by simp)
  · intro hn
    cases hcl : classify_url url with
    | none => rfl
    | some e =>
      cases hplat : e.platform with
      | tiktok =>
        exact absurd (Or.inl ((classify_tiktok_iff url).mp
          ⟨e, hcl, hplat⟩)) hn
      | instagram =>
        exact absurd (Or.inr (Or.inl ((classify_instagram_iff url).mp
          ⟨e, hcl, hplat⟩))) hn
      | x =>
        exact absurd (Or.inr (Or.inr ((classify_x_iff url).mp
          ⟨e, hcl, hplat⟩))) hn



/-- **C5** (counterexample to the claim as stated): the claim says a
host like `xtiktok.com`, which is neither `tiktok.com` nor a
`*.tiktok.com` subdomain, is rejected with `None`; but `_is_tiktok` is
a plain `endswith("tiktok.com")` suffix test, so `classify_url`
classifies it as `tiktok`. -/
theorem c5_xtiktok_counterexample :
    classify_url "https://xtiktok.com/v" =
      some ⟨"https://xtiktok.com/v", "https://xtiktok.com/v",
        Platform.tiktok⟩ := by
  decide

/-- **C5.** Corrected host rules of `classify_url`: the platform is
`tiktok` exactly when the cleaned candidate parses with an http(s)
scheme and the normalized host ends in the characters `tiktok.com`
(not necessarily at a subdomain boundary); `instagram` exactly when
the host ends in `instagram.com` and the lowered path contains
`/reel/`, `/p/` or `/tv/`; `x` exactly for the exact hosts `x.com`,
`twitter.com`, `mobile.twitter.com` with a `/<segment>/status/<digit>`
path; and the result is `None` exactly when none of these conditions
holds. -/
theorem c5_platform_by_host_suffix (url : String) :
    ((∃ e, classify_url url = some e ∧ e.platform = Platform.tiktok) ↔
      specTiktokCond url) ∧
    ((∃ e, classify_url url = some e ∧ e.platform = Platform.instagram) ↔
      specInstagramCond url) ∧
    ((∃ e, classify_url url = some e ∧ e.platform = Platform.x) ↔
      specXCond url) ∧
    (classify_url url = none ↔
      ¬(specTiktokCond url ∨ specInstagramCond url ∨ specXCond url)) :=
  ⟨classify_tiktok_iff url, classify_instagram_iff url,
   classify_x_iff url, classify_none_iff url⟩

theorem splitFirst_none_not_mem {c : Char} :
    ∀ {l : List Char}, splitFirst c l = none → c ∉ l := by
  intro l
  induction l with
  | nil => intro _ h; exact absurd h (List.not_mem_nil c)
  | cons x xs ih =>
    intro h hm
    simp only [splitFirst] at h
    by_cases hx : x = c
    · rw [if_pos hx] at h; exact absurd h (by simp)
    · rw [if_neg hx] at h
      rcases List.mem_cons.mp hm with he | hm2
      · exact hx he.symm
      · exact ih (Option.map_eq_none.mp h) hm2

theorem splitFirst_fst_not_mem {c : Char} :
    ∀ {l a b : List Char}, splitFirst c l = some (a, b) → c ∉ a := by
  intro l
  induction l with
  | nil => intro a b h; exact absurd h (by simp [splitFirst])
  | cons x xs ih =>
    intro a b h hm
    simp only [splitFirst] at h
    by_cases hx : x = c
    · rw [if_pos hx] at h
      simp only [Option.some.injEq, Prod.mk.injEq] at h
      rw [← h.1] at hm
      exact absurd hm (List.not_mem_nil c)
    · rw [if_neg hx] at h
      obtain ⟨p, hp, hpe⟩ := Option.map_eq_some'.mp h
      obtain ⟨ha, _⟩ := Prod.mk.injEq .. ▸ hpe
      rw [← ha] at hm
      rcases List.mem_cons.mp hm with he | hm2
      · exact hx he.symm
      · exact ih hp hm2

theorem splitFirst_mem_fst {c x : Char} :
    ∀ {l a b : List Char}, splitFirst c l = some (a, b) → x ∈ a → x ∈ l := by
  intro l
  induction l with
  | nil => intro a b h; exact absurd h (by simp [splitFirst])
  | cons y ys ih =>
    intro a b h hm
    simp only [splitFirst] at h
    by_cases hy : y = c
    · rw [if_pos hy] at h
      simp only [Option.some.injEq, Prod.mk.injEq] at h
      rw [← h.1] at hm
      exact absurd hm (List.not_mem_nil x)
    · rw [if_neg hy] at h
      obtain ⟨p, hp, hpe⟩ := Option.map_eq_some'.mp h
      obtain ⟨ha, _⟩ := Prod.mk.injEq .. ▸ hpe
      rw [← ha] at hm
      rcases List.mem_cons.mp hm with he | hm2
      · exact he ▸ List.mem_cons_self y ys
      · exact List.mem_cons_of_mem y (ih hp hm2)

theorem splitFirst_mem_snd {c x : Char} :
    ∀ {l a b : List Char}, splitFirst c l = some (a, b) → x ∈ b → x ∈ l := by
  intro l
  induction l with
  | nil => intro a b h; exact absurd h (by simp [splitFirst])
  | cons y ys ih =>
    intro a b h hm
    simp only [splitFirst] at h
    by_cases hy : y = c
    · rw [if_pos hy] at h
      simp only [Option.some.injEq, Prod.mk.injEq] at h
      rw [← h.2] at hm
      exact List.mem_cons_of_mem y hm
    · rw [if_neg hy] at h
      obtain ⟨p, hp, hpe⟩ := Option.map_eq_some'.mp h
      obtain ⟨_, hb⟩ := Prod.mk.injEq .. ▸ hpe
      rw [← hb] at hm
      exact List.mem_cons_of_mem y (ih hp hm)

theorem pyLowerChar_eq_hash {c : Char} (h : pyLowerChar c = '#') :
    c = '#' := by
  unfold pyLowerChar at h
  split at h
  · next hc =>
    exfalso
    simp only [Bool.and_eq_true, decide_eq_true_eq] at hc
    have hge : 65 ≤ c.toNat := hc.1
    have hle : c.toNat ≤ 90 := hc.2
    have hv : Nat.isValidChar (c.toNat + 32) := Or.inl (by omega)
    have h2 := congrArg Char.toNat h
    rw [char_toNat_ofNat _ hv] at h2
    have : ('#' : Char).toNat = 35 := by decide
    omega
  · exact h

theorem mem_pyStripL {x : Char} {l : List Char} (h : x ∈ pyStripL l) :
    x ∈ l := by
  unfold pyStripL at h
  rw [List.mem_reverse] at h
  have h2 := List.Sublist.mem h (List.dropWhile_sublist pyIsSpace)
  rw [List.mem_reverse] at h2
  exact List.Sublist.mem h2 (List.dropWhile_sublist pyIsSpace)

theorem mem_pyRStrip {x : Char} {p : Char → Bool} {l : List Char}
    (h : x ∈ pyRStrip p l) : x ∈ l := by
  unfold pyRStrip at h
  rw [List.mem_reverse] at h
  have h2 := List.Sublist.mem h (List.dropWhile_sublist p)
  rw [List.mem_reverse] at h2
  exact h2

theorem mem_normalizeHostL {x : Char} {n : List Char}
    (h : x ∈ normalizeHostL n) : ∃ c ∈ n, pyLowerChar c = x := by
  simp only [normalizeHostL] at h
  have h2 : x ∈ (match splitFirst ':'
      (match splitFirst '@' (lowerL (pyStripL n)) with
       | some p => p.2
       | none => lowerL (pyStripL n)) with
     | some p => p.1
     | none =>
       match splitFirst '@' (lowerL (pyStripL n)) with
       | some p => p.2
       | none => lowerL (pyStripL n)) := by
    split at h
    · exact List.mem_of_mem_drop h
    · exact h
  have h1 : x ∈ (match splitFirst '@' (lowerL (pyStripL n)) with
      | some p => p.2
      | none => lowerL (pyStripL n)) := by
    cases hsp : splitFirst ':' (match splitFirst '@' (lowerL (pyStripL n)) with
        | some p => p.2
        | none => lowerL (pyStripL n)) with
    | none => rw [hsp] at h2; exact h2
    | some p =>
      rw [hsp] at h2
      cases p with
      | mk a b => exact splitFirst_mem_fst hsp h2
  have h0 : x ∈ lowerL (pyStripL n) := by
    cases hsp : splitFirst '@' (lowerL (pyStripL n)) with
    | none => rw [hsp] at h1; exact h1
    | some p =>
      rw [hsp] at h1
      cases p with
      | mk a b => exact splitFirst_mem_snd hsp h1
  simp only [lowerL, List.mem_map] at h0
  obtain ⟨c, hc, he⟩ := h0
  exact ⟨c, mem_pyStripL hc, he⟩

theorem splitRest_no_hash (scheme netloc u : List Char) :
    '#' ∉ (pyUrlsplit.splitRest scheme netloc u).path ∧
    '#' ∉ (pyUrlsplit.splitRest scheme netloc u).query := by
  have hpath : (pyUrlsplit.splitRest scheme netloc u).path =
      ((splitFirst '?' (((splitFirst '#' u).getD (u, [])).1)).getD
        ((((splitFirst '#' u).getD (u, [])).1), [])).1 := rfl
  have hquery : (pyUrlsplit.splitRest scheme netloc u).query =
      ((splitFirst '?' (((splitFirst '#' u).getD (u, [])).1)).getD
        ((((splitFirst '#' u).getD (u, [])).1), [])).2 := rfl
  have hu3 : '#' ∉ ((splitFirst '#' u).getD (u, [])).1 := by
    cases hsp : splitFirst '#' u with
    | none => exact splitFirst_none_not_mem hsp
    | some p =>
      cases p with
      | mk a b => simpa using splitFirst_fst_not_mem hsp
  rw [hpath, hquery]
  cases hq : splitFirst '?' (((splitFirst '#' u).getD (u, [])).1) with
  | none => exact ⟨by simpa using hu3, by simp⟩
  | some p =>
    cases p with
    | mk a b =>
      simp only [Option.getD_some]
      exact ⟨fun hm => hu3 (splitFirst_mem_fst hq hm),
             fun hm => hu3 (splitFirst_mem_snd hq hm)⟩

theorem splitNetloc_no_hash (l : List Char) : '#' ∉ (splitNetloc l).1 := by
  intro hm
  have := List.mem_takeWhile_imp hm
  simp at this

theorem pyUrlsplit_shape {s : String} {r : SplitResult}
    (h : pyUrlsplit s = some r) :
    ∃ sch nl u, r = pyUrlsplit.splitRest sch nl u ∧ '#' ∉ nl := by
  simp only [pyUrlsplit] at h
  split at h
  · split at h
    · exact absurd h (by simp)
    · split at h
      · split at h
        · obtain rfl := Option.some.inj h
          exact ⟨_, _, _, rfl, splitNetloc_no_hash _⟩
        · exact absurd h (by simp)
      · obtain rfl := Option.some.inj h
        exact ⟨_, _, _, rfl, splitNetloc_no_hash _⟩
  · obtain rfl := Option.some.inj h
    exact ⟨_, _, _, rfl, by simp⟩

theorem pyUrlsplit_no_hash {s : String} {r : SplitResult}
    (h : pyUrlsplit s = some r) :
    '#' ∉ r.netloc ∧ '#' ∉ r.path ∧ '#' ∉ r.query := by
  obtain ⟨sch, nl, u, rfl, hnl⟩ := pyUrlsplit_shape h
  have hnetloc : (pyUrlsplit.splitRest sch nl u).netloc = nl := rfl
  obtain ⟨hp, hq⟩ := splitRest_no_hash sch nl u
  exact ⟨by rw [hnetloc]; exact hnl, hp, hq⟩

theorem char_toNat_ofNat_invalid {m : Nat} (hv : ¬ m.isValidChar) :
    (Char.ofNat m).toNat = 0 := by
  unfold Char.toNat Char.ofNat
  rw [dif_neg hv]
  rfl

theorem splitParams_fst_mem {x : Char} {p : List Char}
    (h : x ∈ (splitParams p).1) : x ∈ p := by
  simp only [splitParams] at h
  split at h
  · split at h
    · exact h
    · exact List.mem_of_mem_take h
  · split at h
    · exact h
    · exact List.mem_of_mem_take h

theorem pyUrlparse_no_hash {s : String} {pr : ParseResult}
    (h : pyUrlparse s = some pr) :
    '#' ∉ pr.netloc ∧ '#' ∉ pr.path ∧ '#' ∉ pr.query := by
  simp only [pyUrlparse] at h
  obtain ⟨r, hr, he⟩ := Option.map_eq_some'.mp h
  obtain ⟨hn, hp, hq⟩ := pyUrlsplit_no_hash hr
  split at he
  · rw [← he]
    exact ⟨hn, fun hm => hp (splitParams_fst_mem hm), hq⟩
  · rw [← he]
    exact ⟨hn, hp, hq⟩

theorem hexUpperDigit_ne_hash (n : Nat) : hexUpperDigit n ≠ '#' := by
  intro he
  unfold hexUpperDigit at he
  have h35 : ('#' : Char).toNat = 35 := by decide
  split at he
  · next hn =>
    have hv : Nat.isValidChar ('0'.toNat + n) := Or.inl (by
      have : ('0' : Char).toNat = 48 := by decide
      omega)
    have := congrArg Char.toNat he
    rw [char_toNat_ofNat _ hv] at this
    have h48 : ('0' : Char).toNat = 48 := by decide
    omega
  · next hn =>
    push_neg at hn
    by_cases hv : Nat.isValidChar ('A'.toNat + n - 10)
    · have := congrArg Char.toNat he
      rw [char_toNat_ofNat _ hv] at this
      have h65 : ('A' : Char).toNat = 65 := by decide
      omega
    · have h0 := char_toNat_ofNat_invalid hv
      rw [he] at h0
      omega

theorem quotePlusByte_no_hash (b : Nat) : '#' ∉ quotePlusByte b := by
  unfold quotePlusByte
  have h35 : ('#' : Char).toNat = 35 := by decide
  split
  · next hsafe =>
    simp only [List.mem_singleton]
    intro he
    by_cases hv : Nat.isValidChar b
    · have := congrArg Char.toNat he
      rw [char_toNat_ofNat _ hv] at this
      rw [show b = 35 by omega] at hsafe
      exact absurd hsafe (by decide)
    · have h0 := char_toNat_ofNat_invalid hv
      rw [← he] at h0
      omega
  · split
    · simp
    · intro hm
      rcases List.mem_cons.mp hm with he | hm2
      · exact absurd he.symm (by decide)
      · rcases List.mem_cons.mp hm2 with he | hm3
        · exact hexUpperDigit_ne_hash _ he.symm
        · rcases List.mem_cons.mp hm3 with he | hm4
          · exact hexUpperDigit_ne_hash _ he.symm
          · exact absurd hm4 (List.not_mem_nil _)

theorem quotePlusL_no_hash (l : List Char) : '#' ∉ quotePlusL l := by
  unfold quotePlusL
  intro hm
  obtain ⟨b, _, hb⟩ := List.mem_flatMap.mp hm
  exact quotePlusByte_no_hash b hb

theorem not_mem_intersperse {x sep : List Char} :
    ∀ {L : List (List Char)}, x ∈ List.intersperse sep L → x = sep ∨ x ∈ L
  | [], h => absurd h (by simp [List.intersperse])
  | [a], h => by
    simp only [List.intersperse_singleton] at h
    exact Or.inr (by simpa using h)
  | a :: b :: t, h => by
    rw [List.intersperse_cons₂] at h
    rcases List.mem_cons.mp h with he | h2
    · exact Or.inr (he ▸ List.mem_cons_self _ _)
    · rcases List.mem_cons.mp h2 with he | h3
      · exact Or.inl he
      · rcases not_mem_intersperse h3 with he | hm
        · exact Or.inl he
        · exact Or.inr (List.mem_cons_of_mem _ hm)

theorem urlencodePairs_no_hash (pairs : List (List Char × List Char)) :
    '#' ∉ urlencodePairs pairs := by
  unfold urlencodePairs
  intro hm
  rw [show List.intercalate ['&'] (pairs.map (fun kv =>
      quotePlusL kv.1 ++ '=' :: quotePlusL kv.2)) =
    (List.intersperse ['&'] (pairs.map (fun kv =>
      quotePlusL kv.1 ++ '=' :: quotePlusL kv.2))).flatten from rfl] at hm
  obtain ⟨l, hl, hml⟩ := List.mem_flatten.mp hm
  rcases not_mem_intersperse hl with he | hl2
  · rw [he] at hml
    exact absurd hml (by decide)
  · obtain ⟨kv, _, hkv⟩ := List.mem_map.mp hl2
    rw [← hkv] at hml
    rcases List.mem_append.mp hml with hm1 | hm2
    · exact quotePlusL_no_hash _ hm1
    · rcases List.mem_cons.mp hm2 with he | hm3
      · exact absurd he (by decide)
      · exact quotePlusL_no_hash _ hm3

theorem mem_unsplit_url1 {x : Char} {n p : List Char}
    (h : x ∈ (if n ≠ [] || p.take 2 = ['/', '/'] then
        '/' :: '/' :: (n ++ (if p ≠ [] && p.headD ' ' ≠ '/' then '/' :: p
          else p))
      else p)) :
    x ∈ n ∨ x ∈ p ∨ x = '/' := by
  split at h
  · rcases List.mem_cons.mp h with he | h2
    · exact Or.inr (Or.inr he)
    · rcases List.mem_cons.mp h2 with he | h3
      · exact Or.inr (Or.inr he)
      · rcases List.mem_append.mp h3 with h4 | h4
        · exact Or.inl h4
        · split at h4
          · rcases List.mem_cons.mp h4 with he | h5
            · exact Or.inr (Or.inr he)
            · exact Or.inr (Or.inl h5)
          · exact Or.inr (Or.inl h4)
  · exact Or.inr (Or.inl h)

theorem mem_pyUrlunsplit_nofrag {x : Char} {sch n p q : List Char}
    (h : x ∈ pyUrlunsplit sch n p q []) :
    x ∈ sch ∨ x ∈ n ∨ x ∈ p ∨ x ∈ q ∨ x = ':' ∨ x = '/' ∨ x = '?' := by
  have hsplit : pyUrlunsplit sch n p q [] =
      (let url1 :=
        if n ≠ [] || p.take 2 = ['/', '/'] then
          '/' :: '/' :: (n ++ (if p ≠ [] && p.headD ' ' ≠ '/' then '/' :: p
            else p))
        else p
       let url2 := if sch ≠ [] then sch ++ ':' :: url1 else url1
       if q ≠ [] then url2 ++ '?' :: q else url2) := rfl
  rw [hsplit] at h
  simp only [] at h
  have hurl2 : ∀ {y : Char},
      y ∈ (if sch ≠ [] then sch ++ ':' ::
          (if n ≠ [] || p.take 2 = ['/', '/'] then
            '/' :: '/' :: (n ++ (if p ≠ [] && p.headD ' ' ≠ '/' then
              '/' :: p else p))
          else p)
        else
          (if n ≠ [] || p.take 2 = ['/', '/'] then
            '/' :: '/' :: (n ++ (if p ≠ [] && p.headD ' ' ≠ '/' then
              '/' :: p else p))
          else p)) →
      y ∈ sch ∨ y ∈ n ∨ y ∈ p ∨ y = ':' ∨ y = '/' := by
    intro y hy
    split at hy
    · rcases List.mem_append.mp hy with h2 | h2
      · exact Or.inl h2
      · rcases List.mem_cons.mp h2 with he | h3
        · exact Or.inr (Or.inr (Or.inr (Or.inl he)))
        · rcases mem_unsplit_url1 h3 with h4 | h4 | h4
          · exact Or.inr (Or.inl h4)
          · exact Or.inr (Or.inr (Or.inl h4))
          · exact Or.inr (Or.inr (Or.inr (Or.inr h4)))
    · rcases mem_unsplit_url1 hy with h4 | h4 | h4
      · exact Or.inr (Or.inl h4)
      · exact Or.inr (Or.inr (Or.inl h4))
      · exact Or.inr (Or.inr (Or.inr (Or.inr h4)))
  split at h
  · rcases List.mem_append.mp h with h2 | h2
    · rcases hurl2 h2 with h3 | h3 | h3 | h3 | h3
      · exact Or.inl h3
      · exact Or.inr (Or.inl h3)
      · exact Or.inr (Or.inr (Or.inl h3))
      · exact Or.inr (Or.inr (Or.inr (Or.inr (Or.inl h3))))
      · exact Or.inr (Or.inr (Or.inr (Or.inr (Or.inr (Or.inl h3)))))
    · rcases List.mem_cons.mp h2 with he | h3
      · exact Or.inr (Or.inr (Or.inr (Or.inr (Or.inr (Or.inr he)))))
      · exact Or.inr (Or.inr (Or.inr (Or.inl h3)))
  · rcases hurl2 h with h3 | h3 | h3 | h3 | h3
    · exact Or.inl h3
    · exact Or.inr (Or.inl h3)
    · exact Or.inr (Or.inr (Or.inl h3))
    · exact Or.inr (Or.inr (Or.inr (Or.inr (Or.inl h3))))
    · exact Or.inr (Or.inr (Or.inr (Or.inr (Or.inr (Or.inl h3)))))

theorem https_head_shape (u1 q : List Char) :
    ∃ r, (if q ≠ [] then "https".data ++ ':' :: u1 ++ '?' :: q
          else "https".data ++ ':' :: u1) = "https:".data ++ r := by
  have hhttps : ("https:".data : List Char) = "https".data ++ [':'] := by
    decide
  split
  · exact ⟨u1 ++ '?' :: q, by rw [hhttps]; simp⟩
  · exact ⟨u1, by rw [hhttps]; simp⟩

theorem unsplit_starts_https (n p q : List Char) :
    ∃ r, pyUrlunsplit "https".data n p q [] = "https:".data ++ r := by
  have hhttps : ("https:".data : List Char) = "https".data ++ [':'] := by
    decide
  have hsplit : pyUrlunsplit "https".data n p q [] =
      (let url1 :=
        if n ≠ [] || p.take 2 = ['/', '/'] then
          '/' :: '/' :: (n ++ (if p ≠ [] && p.headD ' ' ≠ '/' then '/' :: p
            else p))
        else p
       if q ≠ [] then ("https".data ++ ':' :: url1) ++ '?' :: q
       else "https".data ++ ':' :: url1) := rfl
  rw [hsplit]
  exact https_head_shape _ q

theorem normalizeFromParts_no_hash {pr : ParseResult}
    (hn : '#' ∉ pr.netloc) (hp : '#' ∉ pr.path) :
    '#' ∉ normalizeFromParts pr := by
  intro hm
  have hm2 : '#' ∈ pyUrlunsplit "https".data (normalizeHostL pr.netloc)
      (if (if pr.path = [] then ['/'] else pr.path) = ['/'] then
        (if pr.path = [] then ['/'] else pr.path)
      else
        (if pyRStrip (· = '/') (if pr.path = [] then ['/'] else pr.path)
            = [] then ['/']
         else pyRStrip (· = '/') (if pr.path = [] then ['/'] else pr.path)))
      (strip_tracking_query pr.query) [] := hm
  have hpath : '#' ∉ (if (if pr.path = [] then ['/'] else pr.path)
      = ['/'] then (if pr.path = [] then ['/'] else pr.path)
    else
      (if pyRStrip (· = '/') (if pr.path = [] then ['/'] else pr.path)
          = [] then ['/']
       else pyRStrip (· = '/') (if pr.path = [] then ['/'] else pr.path))) := by
    by_cases h0 : pr.path = []
    · simp [h0]
    · simp only [if_neg h0]
      split
      · exact hp
      · split
        · simp
        · exact fun hmem => hp (mem_pyRStrip hmem)
  rcases mem_pyUrlunsplit_nofrag hm2 with h | h | h | h | h | h | h
  · exact absurd h (by decide)
  · obtain ⟨c, hc, he⟩ := mem_normalizeHostL h
    exact hn (pyLowerChar_eq_hash he ▸ hc)
  · exact hpath h
  · exact urlencodePairs_no_hash _ h
  · exact absurd h (by decide)
  · exact absurd h (by decide)
  · exact absurd h (by decide)

theorem normalize_url_no_hash {url out : String}
    (h : normalize_url url = some out) : '#' ∉ out.data := by
  simp only [normalize_url] at h
  obtain ⟨pr, hpr, he⟩ := Option.map_eq_some'.mp h
  obtain ⟨hn, hp, _⟩ := pyUrlparse_no_hash hpr
  rw [← he]
  exact normalizeFromParts_no_hash hn hp

theorem normalize_url_starts_https {url out : String}
    (h : normalize_url url = some out) :
    ∃ r, out.data = "https:".data ++ r := by
  simp only [normalize_url] at h
  obtain ⟨pr, _, he⟩ := Option.map_eq_some'.mp h
  rw [← he]
  exact unsplit_starts_https _ _ _

theorem dropWhile_head_not {p : Char → Bool} :
    ∀ {l : List Char} {c : Char}, (l.dropWhile p).head? = some c →
      p c = false := by
  intro l
  induction l with
  | nil => intro c h; simp at h
  | cons x xs ih =>
    intro c h
    rw [List.dropWhile_cons] at h
    by_cases hx : p x = true
    · rw [if_pos hx] at h
      exact ih h
    · rw [if_neg hx] at h
      simp only [List.head?_cons, Option.some.injEq] at h
      cases hpx : p x with
      | true => exact absurd hpx hx
      | false => rw [← h]; exact hpx

theorem pyRStrip_getLast_not {p : Char → Bool} {l : List Char} {c : Char}
    (h : (pyRStrip p l).getLast? = some c) : p c = false := by
  unfold pyRStrip at h
  rw [List.getLast?_reverse] at h
  exact dropWhile_head_not h

theorem pyRStrip_decomp (p : Char → Bool) (ch : Char) (l : List Char)
    (hall : ∀ c, p c = true → c = ch) :
    ∃ k, l = pyRStrip p l ++ List.replicate k ch := by
  refine ⟨(l.reverse.takeWhile p).length, ?_⟩
  have htk : (l.reverse.takeWhile p).reverse =
      List.replicate (l.reverse.takeWhile p).length ch := by
    have hmem : ∀ b ∈ (l.reverse.takeWhile p).reverse, b = ch := by
      intro b hb
      rw [List.mem_reverse] at hb
      exact hall b (List.mem_takeWhile_imp hb)
    have := List.eq_replicate_of_mem hmem
    rwa [List.length_reverse] at this
  calc l = l.reverse.reverse := (List.reverse_reverse l).symm
    _ = (l.reverse.takeWhile p ++ l.reverse.dropWhile p).reverse := by
        rw [List.takeWhile_append_dropWhile]
    _ = (l.reverse.dropWhile p).reverse ++ (l.reverse.takeWhile p).reverse := by
        rw [List.reverse_append]
    _ = pyRStrip p l ++ List.replicate (l.reverse.takeWhile p).length ch := by
        rw [htk]; rfl

theorem normalize_url_path_component {url : String} {pr : ParseResult}
    (h : pyUrlparse url = some pr) :
    ∃ pth, normalize_url url = some (String.mk (pyUrlunparse "https".data
        (normalizeHostL pr.netloc) pth [] (strip_tracking_query pr.query)
        [])) ∧
      (pth = ['/'] ∨
        (pth ≠ [] ∧ pth.getLast? ≠ some '/' ∧
         ∃ k, pr.path = pth ++ List.replicate k '/')) := by
  refine ⟨(if (if pr.path = [] then ['/'] else pr.path) = ['/'] then
      (if pr.path = [] then ['/'] else pr.path)
    else
      (if pyRStrip (· = '/') (if pr.path = [] then ['/'] else pr.path) = []
       then ['/']
       else pyRStrip (· = '/') (if pr.path = [] then ['/'] else pr.path))),
    ?_, ?_⟩
  · simp only [normalize_url, h]
    rfl
  · by_cases h1 : (if pr.path = [] then ['/'] else pr.path) = ['/']
    · rw [if_pos h1]
      exact Or.inl h1
    · rw [if_neg h1]
      by_cases h2 : pyRStrip (· = '/')
          (if pr.path = [] then ['/'] else pr.path) = []
      · rw [if_pos h2]
        exact Or.inl rfl
      · rw [if_neg h2]
        have hne : pr.path ≠ [] := by
          intro h0
          rw [h0] at h1
          simp at h1
        have hp0 : (if pr.path = [] then ['/'] else pr.path) = pr.path :=
          if_neg hne
        rw [hp0] at h2 ⊢
        refine Or.inr ⟨h2, ?_, ?_⟩
        · intro hlast
          have := pyRStrip_getLast_not hlast
          simp at this
        · exact pyRStrip_decomp _ '/' pr.path (fun c hc => by simpa using hc)

/-- **C7.** `normalize_url`: (1) the spec's S6 example — extraction of
the parenthesised Instagram URL yields exactly one item normalized to
`https://instagram.com/p/ABC123`; (2) the stripped query is the
re-encoding of a sorted-by-(key,value) permutation of exactly those
parsed pairs whose key is not case-insensitively `si`, `feature`,
`igshid` or a `utm_` prefix; (3) every successful output starts with
the forced `https:` scheme and contains no `#` (the fragment is
dropped); (4) the reassembled path component is either the root `/` or
a non-empty prefix of the parsed path with all trailing slashes
removed and none left. -/
theorem c7_normalization (url : String) (q : List Char) :
    (extract_supported_urls
        "Try (https://instagram.com/p/ABC123/?utm_campaign=x)." =
      [⟨"https://instagram.com/p/ABC123/?utm_campaign=x",
        "https://instagram.com/p/ABC123", Platform.instagram⟩]) ∧
    (∃ l, strip_tracking_query q = urlencodePairs l ∧
      l.Perm ((parse_qsl q).filter (fun kv =>
        !((lowerL kv.1).take 4 = "utm_".data || lowerL kv.1 = "si".data ||
          lowerL kv.1 = "feature".data || lowerL kv.1 = "igshid".data))) ∧
      l.Pairwise (fun a b => pairLe a b = true)) ∧
    (∀ out, normalize_url url = some out →
      (∃ r, out.data = "https:".data ++ r) ∧ '#' ∉ out.data) ∧
    (∀ pr, pyUrlparse url = some pr →
      ∃ pth, normalize_url url = some (String.mk (pyUrlunparse
          "https".data (normalizeHostL pr.netloc) pth []
          (strip_tracking_query pr.query) [])) ∧
        (pth = ['/'] ∨
          (pth ≠ [] ∧ pth.getLast? ≠ some '/' ∧
           ∃ k, pr.path = pth ++ List.replicate k '/'))) := by
  refine ⟨by decide, ?_, ?_, ?_⟩
  · refine ⟨pySortBy pairLe ((parse_qsl q).filter
      (fun kv => !trackingKey kv.1)), rfl, ?_, ?_⟩
    · exact pySortBy_perm _ _
    · exact @pySortBy_sorted _ pairLe
        (fun a b c h1 h2 => pairLe_trans h1 h2) pairLe_total _
  · intro out h
    exact ⟨normalize_url_starts_https h, normalize_url_no_hash h⟩
  · intro pr h
    exact normalize_url_path_component h


/-- Witness for C7: the hypothesis-bearing conjuncts applied to the
concrete URL `https://instagram.com/p/Hi//?b=2&a=1#x`, whose
normalization is `https://instagram.com/p/Hi?a=1&b=2`. -/
theorem c7_normalization_witness :
    ((∃ r, ("https://instagram.com/p/Hi?a=1&b=2" : String).data =
        "https:".data ++ r) ∧
      '#' ∉ ("https://instagram.com/p/Hi?a=1&b=2" : String).data) ∧
    (∃ pth, normalize_url "https://instagram.com/p/Hi//?b=2&a=1#x" =
        some (String.mk (pyUrlunparse "https".data
          (normalizeHostL "instagram.com".data) pth []
          (strip_tracking_query "b=2&a=1".data) [])) ∧
      (pth = ['/'] ∨ (pth ≠ [] ∧ pth.getLast? ≠ some '/' ∧
        ∃ k, "/p/Hi//".data = pth ++ List.replicate k '/'))) :=
  ⟨(c7_normalization "https://instagram.com/p/Hi//?b=2&a=1#x" []).2.2.1
      "https://instagram.com/p/Hi?a=1&b=2" (by decide),
   by
     have h2 := (c7_normalization "https://instagram.com/p/Hi//?b=2&a=1#x"
       []).2.2.2 ⟨"https".data, "instagram.com".data, "/p/Hi//".data, [],
       "b=2&a=1".data, "x".data⟩ (by decide)
     exact h2⟩

theorem same_subscriber_iff {a b : Subscriber} :
    same_subscriber a b = true ↔ subTriple a = subTriple b := by
  simp only [same_subscriber, subTriple, Bool.and_eq_true,
    decide_eq_true_eq, Prod.mk.injEq]
  tauto

theorem activeStatus_iff {s : Status} :
    activeStatus s = true ↔ s = .queued ∨ s = .running := by
  cases s <;> simp [activeStatus]

theorem append_subscriber_present {subs : List Subscriber}
    {sub : Subscriber} (h : ∃ s ∈ subs, same_subscriber s sub = true) :
    append_subscriber_if_missing subs sub = (subs, false) := by
  unfold append_subscriber_if_missing
  rw [if_pos (List.any_eq_true.mpr (by
    obtain ⟨s, hs, hsame⟩ := h
    exact ⟨s, hs, hsame⟩))]

theorem append_subscriber_absent {subs : List Subscriber}
    {sub : Subscriber} (h : ¬ ∃ s ∈ subs, same_subscriber s sub = true) :
    append_subscriber_if_missing subs sub = (subs ++ [sub], true) := by
  unfold append_subscriber_if_missing
  rw [if_neg (fun hany => h (by
    obtain ⟨s, hs, hsame⟩ := List.any_eq_true.mp hany
    exact ⟨s, hs, hsame⟩))]

theorem dictGet_singleton (u : String) (j : JobRecord) :
    dictGet [(u, j)] u = some j := by
  simp [dictGet, List.find?]

theorem activeByUrl_singleton {j : JobRecord}
    (h : activeStatus j.status = true) :
    activeByUrl [j] = [(j.normalized_url, j)] := by
  simp [activeByUrl, h]

theorem upsert_singleton_same {j r : JobRecord} (h : r.job_id = j.job_id) :
    upsertBy (·.job_id) [j] r = [r] := by
  unfold upsertBy
  rw [if_pos (by simp [h])]
  simp [h]

theorem enqueueLoop_absorb (cfg : StoreConfig) (subRow : Subscriber)
    (now : String) (ids times : Nat → String) (u : String) (j : JobRecord)
    (hj : ∃ s ∈ j.subscribers, same_subscriber s subRow = true) :
    ∀ (inputs : List ExtractedUrl) (i : Nat) (queue : List JobRecord)
      (outs : List EnqueueRow),
      (∀ it ∈ inputs, it.normalized_url = u) →
      (enqueueLoop cfg subRow now ids times inputs i queue [(u, j)]
        outs).2 = queue := by
  intro inputs
  induction inputs with
  | nil => intro i queue outs _; rfl
  | cons it rest ih =>
    intro i queue outs hall
    have hurl : it.normalized_url = u := hall it (by simp)
    have hget : dictGet [(u, j)] it.normalized_url = some j := by
      rw [hurl]; exact dictGet_singleton u j
    have happ : append_subscriber_if_missing j.subscribers subRow =
        (j.subscribers, false) := append_subscriber_present hj
    simp only [enqueueLoop, hget, happ, Bool.false_eq_true, if_false, eq_self_iff_true, if_true]
    exact ih (i + 1) queue _ (fun it2 h2 => hall it2 (by simp [h2]))

theorem enqueueLoop_from_active (cfg : StoreConfig) (subRow : Subscriber)
    (now : String) (ids times : Nat → String) (u : String)
    (inputs : List ExtractedUrl) (i : Nat) (queue : List JobRecord)
    (j : JobRecord) (outs : List EnqueueRow)
    (hne : inputs ≠ [])
    (hall : ∀ it ∈ inputs, it.normalized_url = u)
    (hmat : materialize queue = [j])
    (hid : j.job_id ≠ "")
    (hu : j.normalized_url = u) :
    ∃ j', materialize (enqueueLoop cfg subRow now ids times inputs i queue
        [(u, j)] outs).2 = [j'] ∧
      j'.subscribers = (append_subscriber_if_missing j.subscribers
        subRow).1 ∧
      j'.status = j.status ∧ j'.normalized_url = u ∧
      j'.job_id = j.job_id := by
  cases inputs with
  | nil => exact absurd rfl hne
  | cons it rest =>
    have hurl : it.normalized_url = u := hall it (by simp)
    have hget : dictGet [(u, j)] it.normalized_url = some j := by
      rw [hurl]; exact dictGet_singleton u j
    have hallr : ∀ it2 ∈ rest, it2.normalized_url = u :=
      fun it2 h2 => hall it2 (by simp [h2])
    by_cases hmem : ∃ s ∈ j.subscribers, same_subscriber s subRow = true
    · have happ : append_subscriber_if_missing j.subscribers subRow =
        (j.subscribers, false) := append_subscriber_present hmem
      simp only [enqueueLoop, hget, happ, Bool.false_eq_true, if_false, eq_self_iff_true, if_true]
      rw [enqueueLoop_absorb cfg subRow now ids times u j hmem rest
        (i + 1) queue _ hallr]
      exact ⟨j, hmat, rfl, rfl, hu, rfl⟩
    · have happ : append_subscriber_if_missing j.subscribers subRow =
        (j.subscribers ++ [subRow], true) := append_subscriber_absent hmem
      simp only [enqueueLoop, hget, happ, Bool.false_eq_true, if_false, eq_self_iff_true, if_true]
      have hmap : List.map (fun e =>
          if e.1 = it.normalized_url then (e.1, { j with
            subscribers := j.subscribers ++ [subRow]
            updated_at := times i }) else e) [(u, j)] =
          [(u, { j with
            subscribers := j.subscribers ++ [subRow]
            updated_at := times i })] := by
        simp [hurl]
      simp only [hmap]
      set updated : JobRecord := { j with
        subscribers := j.subscribers ++ [subRow]
        updated_at := times i } with hupd
      have hmat2 : materialize (queue ++ [updated]) = [updated] := by
        rw [materialize_append_one, if_neg (by simpa [hupd] using hid),
          hmat]
        exact upsert_singleton_same (by simp [hupd])
      have habs : ∃ s ∈ updated.subscribers,
          same_subscriber s subRow = true := by
        refine ⟨subRow, by simp [hupd], ?_⟩
        rw [same_subscriber_iff]
      rw [enqueueLoop_absorb cfg subRow now ids times u updated habs rest
        (i + 1) (queue ++ [updated]) _ hallr]
      exact ⟨updated, hmat2, by simp [hupd, happ], by simp [hupd],
        by simp [hupd, hu], by simp [hupd]⟩

theorem upsert_nil (idOf : α → String) (r : α) :
    upsertBy idOf [] r = [r] := by
  simp [upsertBy]

theorem enqueueLoop_from_empty (cfg : StoreConfig) (subRow : Subscriber)
    (now : String) (ids times : Nat → String) (u : String)
    (inputs : List ExtractedUrl) (i : Nat) (queue : List JobRecord)
    (outs : List EnqueueRow)
    (hne : inputs ≠ [])
    (hall : ∀ it ∈ inputs, it.normalized_url = u)
    (hmat : materialize queue = [])
    (hidi : ids i ≠ "") :
    ∃ j', materialize (enqueueLoop cfg subRow now ids times inputs i queue
        [] outs).2 = [j'] ∧
      j'.subscribers = [subRow] ∧ j'.status = .queued ∧
      j'.normalized_url = u ∧ j'.job_id = ids i := by
  cases inputs with
  | nil => exact absurd rfl hne
  | cons it rest =>
    have hurl : it.normalized_url = u := hall it (by simp)
    have hallr : ∀ it2 ∈ rest, it2.normalized_url = u :=
      fun it2 h2 => hall it2 (by simp [h2])
    have hget : dictGet ([] : List (String × JobRecord))
        it.normalized_url = none := rfl
    simp only [enqueueLoop, hget, List.nil_append]
    set J : JobRecord := (⟨ids i, it.input_url, it.normalized_url,
      it.platform.value, .queued, 0, storeMaxAttempts cfg, now, now,
      none, none, [subRow], ⟨none, 0, none⟩, none⟩ : JobRecord) with hJ
    have hmat2 : materialize (queue ++ [J]) = [J] := by
      rw [materialize_append_one, if_neg (by simpa [hJ] using hidi), hmat]
      exact upsert_nil _ _
    have habs : ∃ s ∈ J.subscribers, same_subscriber s subRow = true := by
      refine ⟨subRow, by simp [hJ], ?_⟩
      rw [same_subscriber_iff]
    have hact : ((it.normalized_url, J) : String × JobRecord) = (u, J) := by
      rw [hurl]
    rw [hact, enqueueLoop_absorb cfg subRow now ids times u J habs rest
      (i + 1) (queue ++ [J]) _ hallr]
    exact ⟨J, hmat2, by simp [hJ], by simp [hJ], by simp [hJ, hurl],
      by simp [hJ]⟩

theorem sameUrlTrace_inv {cfg : StoreConfig} {u : String} {st : StoreState}
    {ts : List (Int × Int × Option Int)}
    (h : SameUrlTrace cfg u st ts) :
    (ts = [] → materialize st.queue = []) ∧
    (ts ≠ [] → ∃ j, materialize st.queue = [j] ∧ j.job_id ≠ "" ∧
      j.normalized_url = u ∧ activeStatus j.status = true ∧
      (j.subscribers.map subTriple).Nodup ∧
      (∀ t, t ∈ j.subscribers.map subTriple ↔ t ∈ ts)) := by
  induction h with
  | init => exact ⟨fun _ => rfl, fun hne => absurd rfl hne⟩
  | enqueue inputs sub now ids times htr hne hall hfresh ih =>
    rename_i st ts
    constructor
    · intro habs
      exact absurd habs (by simp)
    · intro _
      have hlen : 0 < inputs.length := by
        cases inputs with
        | nil => exact absurd rfl hne
        | cons a b => simp
      simp only [enqueue_many, if_neg hne]
      by_cases hts : ts = []
      · -- creation: the materialized queue is empty
        have hmat : materialize st.queue = [] := ih.1 hts
        have hactive : activeByUrl (materialize st.queue) = [] := by
          rw [hmat]; rfl
        rw [hactive]
        obtain ⟨j', hm, hsubs, hstat, hurl, hjid⟩ :=
          enqueueLoop_from_empty cfg ⟨sub.chat_id, sub.message_id,
            sub.thread_id, now⟩ now ids times u inputs 0 st.queue []
            hne hall hmat (hfresh.1 0 hlen).1
        have hperm := materialize_maybeCompact_perm cfg
          ⟨(enqueueLoop cfg ⟨sub.chat_id, sub.message_id, sub.thread_id,
            now⟩ now ids times inputs 0 st.queue [] []).2, st.results⟩
        rw [hm] at hperm
        refine ⟨j', List.perm_singleton.mp hperm, ?_, hurl, ?_, ?_, ?_⟩
        · rw [hjid]; exact (hfresh.1 0 hlen).1
        · rw [activeStatus_iff, hstat]; exact Or.inl rfl
        · rw [hsubs]; simp
        · intro t
          rw [hsubs, hts]
          simp [subTriple]
      · -- merge into the existing active job
        obtain ⟨j, hmat, hjid, hurl, hact, hnd, hmem⟩ := ih.2 hts
        have hactive : activeByUrl (materialize st.queue) = [(u, j)] := by
          rw [hmat, activeByUrl_singleton hact, hurl]
        rw [hactive]
        obtain ⟨j', hm, hsubs, hstat, hurl', hjid'⟩ :=
          enqueueLoop_from_active cfg ⟨sub.chat_id, sub.message_id,
            sub.thread_id, now⟩ now ids times u inputs 0 st.queue j []
            hne hall hmat hjid hurl
        have hperm := materialize_maybeCompact_perm cfg
          ⟨(enqueueLoop cfg ⟨sub.chat_id, sub.message_id, sub.thread_id,
            now⟩ now ids times inputs 0 st.queue [(u, j)] []).2,
            st.results⟩
        rw [hm] at hperm
        refine ⟨j', List.perm_singleton.mp hperm, ?_, hurl', ?_, ?_, ?_⟩
        · rw [hjid']; exact hjid
        · rw [activeStatus_iff] at hact ⊢
          rw [hstat]; exact hact
        · by_cases hpres : ∃ s ∈ j.subscribers,
              same_subscriber s ⟨sub.chat_id, sub.message_id,
                sub.thread_id, now⟩ = true
          · rw [hsubs, append_subscriber_present hpres]
            exact hnd
          · rw [hsubs, append_subscriber_absent hpres]
            rw [List.map_append, List.nodup_append]
            refine ⟨hnd, by simp, ?_⟩
            intro t ht1 ht2
            apply hpres
            simp only [List.map_cons, List.map_nil,
              List.mem_singleton] at ht2
            obtain ⟨s, hs, hst⟩ := List.mem_map.mp ht1
            refine ⟨s, hs, ?_⟩
            rw [same_subscriber_iff, hst, ht2]
        · by_cases hpres : ∃ s ∈ j.subscribers,
              same_subscriber s ⟨sub.chat_id, sub.message_id,
                sub.thread_id, now⟩ = true
          · rw [hsubs, append_subscriber_present hpres]
            intro t
            rw [List.mem_append]
            constructor
            · intro ht
              exact Or.inl ((hmem t).mp ht)
            · intro ht
              rcases ht with ht | ht
              · exact (hmem t).mpr ht
              · simp only [List.mem_singleton] at ht
                obtain ⟨s, hs, hsame⟩ := hpres
                rw [same_subscriber_iff] at hsame
                rw [ht]
                exact List.mem_map.mpr ⟨s, hs, hsame⟩
          · rw [hsubs, append_subscriber_absent hpres]
            intro t
            rw [List.map_append, List.mem_append, List.mem_append]
            constructor
            · intro ht
              rcases ht with ht | ht
              · exact Or.inl ((hmem t).mp ht)
              · simp only [List.map_cons, List.map_nil,
                  List.mem_singleton] at ht
                exact Or.inr (by simp [ht, subTriple])
            · intro ht
              rcases ht with ht | ht
              · exact Or.inl ((hmem t).mpr ht)
              · simp only [List.mem_singleton] at ht
                right
                simp [ht, subTriple]
  | claim w now htr ih =>
    rename_i st ts
    constructor
    · intro hts
      have hmat : materialize st.queue = [] := ih.1 hts
      have hq : (materialize st.queue).filter
          (fun j => j.status = .queued) = [] := by
        rw [hmat]; rfl
      simp only [claim_next, hq]
      exact hmat
    · intro hts
      obtain ⟨j, hmat, hjid, hurl, hact, hnd, hmem⟩ := ih.2 hts
      rcases activeStatus_iff.mp hact with hst | hst
      · -- queued: the claim succeeds and appends the running copy
        have hq : (materialize st.queue).filter
            (fun j => j.status = .queued) = [j] := by
          rw [hmat]
          simp [List.filter, hst]
        have hsort : pySortBy claimLe [j] = [j] := rfl
        simp only [claim_next, hq, hsort]
        set job : JobRecord := { j with
          status := .running
          attempts := j.attempts + 1
          updated_at := now
          claimed_by := some w
          error := none } with hjob
        have hmat2 : materialize (st.queue ++ [job]) = [job] := by
          rw [materialize_append_one, if_neg (by simpa [hjob] using hjid),
            hmat]
          exact upsert_singleton_same (by simp [hjob])
        have hperm := materialize_maybeCompact_perm cfg
          ⟨st.queue ++ [job], st.results⟩
        rw [hmat2] at hperm
        refine ⟨job, List.perm_singleton.mp hperm, by simpa [hjob]
          using hjid, by simpa [hjob] using hurl, ?_, ?_, ?_⟩
        · rw [activeStatus_iff]
          exact Or.inr (by simp [hjob])
        · simpa [hjob] using hnd
        · intro t
          have : job.subscribers = j.subscribers := by simp [hjob]
          rw [this]
          exact hmem t
      · -- running: nothing is queued, the claim is a no-op
        have hq : (materialize st.queue).filter
            (fun j => j.status = .queued) = [] := by
          rw [hmat]
          simp [List.filter, hst]
        simp only [claim_next, hq]
        exact ⟨j, hmat, hjid, hurl, hact, hnd, hmem⟩

/-- **C2.** Active-URL uniqueness and subscriber dedup: along any
sequence of `enqueue_many` calls presenting the same normalized URL
`u` (interleaved with `claim_next`) from empty logs, the materialized
store holds exactly one job with an active (`queued`/`running`)
status for `u`, whose subscribers carry each distinct
`(chat_id, message_id, thread_id)` triple exactly once — the triples
are duplicate-free and are exactly the presented ones.  The second
conjunct shows within-call dedup: a second input with the normalized
URL of a job created earlier in the same call merges into it
(`deduplicated := true`, same `job_id`, one job created). -/
theorem c2_active_url_uniqueness (cfg : StoreConfig) (u : String)
    (st : StoreState) (ts : List (Int × Int × Option Int))
    (h : SameUrlTrace cfg u st ts) (hne : ts ≠ []) :
    (∃ j, (materialize st.queue).filter
        (fun j => activeStatus j.status && j.normalized_url = u) = [j] ∧
      (j.subscribers.map subTriple).Nodup ∧
      (∀ t, t ∈ j.subscribers.map subTriple ↔ t ∈ ts)) ∧
    (enqueue_many ⟨3, 1000⟩ ⟨[], []⟩
        [⟨"https://tiktok.com/a", "https://tiktok.com/a", .tiktok⟩,
         ⟨"https://tiktok.com/a?x", "https://tiktok.com/a", .tiktok⟩]
        ⟨1, 2, none⟩ "t0" (fun _ => "id0") (fun _ => "t1")).1 =
      [⟨"id0", .queued, false, "https://tiktok.com/a",
        "https://tiktok.com/a", "tiktok"⟩,
       ⟨"id0", .queued, true, "https://tiktok.com/a",
        "https://tiktok.com/a", "tiktok"⟩] := by
  refine ⟨?_, by decide⟩
  obtain ⟨j, hmat, hjid, hurl, hact, hnd, hmem⟩ := (sameUrlTrace_inv h).2 hne
  refine ⟨j, ?_, hnd, hmem⟩
  rw [hmat]
  simp [List.filter, hact, hurl]

/-- Witness for C2: one `enqueue_many` call of a single TikTok URL
from empty logs, with subscriber `(1, 2, none)` and fresh id `id0`,
satisfies the uniqueness conclusion. -/
theorem c2_active_url_uniqueness_witness :
    (∃ j, (materialize (enqueue_many ⟨3, 1000⟩ ⟨[], []⟩
          [⟨"https://tiktok.com/a", "https://tiktok.com/a",
            Platform.tiktok⟩]
          ⟨1, 2, none⟩ "t0" (fun _ => "id0")
          (fun _ => "t1")).2.queue).filter
        (fun j => activeStatus j.status &&
          j.normalized_url = "https://tiktok.com/a") = [j] ∧
      (j.subscribers.map subTriple).Nodup ∧
      (∀ t, t ∈ j.subscribers.map subTriple ↔
        t ∈ ([((1 : Int), (2 : Int), (none : Option Int))]))) ∧
    (enqueue_many ⟨3, 1000⟩ ⟨[], []⟩
        [⟨"https://tiktok.com/a", "https://tiktok.com/a", .tiktok⟩,
         ⟨"https://tiktok.com/a?x", "https://tiktok.com/a", .tiktok⟩]
        ⟨1, 2, none⟩ "t0" (fun _ => "id0") (fun _ => "t1")).1 =
      [⟨"id0", .queued, false, "https://tiktok.com/a",
        "https://tiktok.com/a", "tiktok"⟩,
       ⟨"id0", .queued, true, "https://tiktok.com/a",
        "https://tiktok.com/a", "tiktok"⟩] :=
  c2_active_url_uniqueness ⟨3, 1000⟩ "https://tiktok.com/a" _ _
    (SameUrlTrace.enqueue
      [⟨"https://tiktok.com/a", "https://tiktok.com/a", Platform.tiktok⟩]
      ⟨1, 2, none⟩ "t0" (fun _ => "id0") (fun _ => "t1")
      SameUrlTrace.init (by simp) (by decide)
      ⟨fun i hi => by
        simp only [List.length_singleton] at hi
        have h0 : i = 0 := by omega
        subst h0
        exact ⟨by decide, by simp⟩,
       fun i j hi hj hij => by
        simp only [List.length_singleton] at hi hj
        omega⟩)
    (by simp)

end Clipdrop
